import Mathlib

/-! AVL tree engine of `Balanceamento-AVL.c`

Shallow embedding of the AVL tree of `src/Balanceamento-AVL.c` and proofs of
its specification.

Modelling conventions.

* A `Node*` is a value of the inductive type `Node`; the `NULL` pointer is
  `Node.nil`.  Ownership in the source is strictly tree shaped (no sharing, no
  back references), so in-place mutation of a subtree is the construction of a
  new value.
* `int` keys are only copied and compared, never computed with, so they are
  modelled as `Int`; every 32-bit key is an `Int`.
* `int` heights are modelled as `Int`.  The only arithmetic on them is
  `1 + max` and one subtraction.  A tree that satisfies the invariants below
  holds pairwise distinct 32-bit keys, so its height stays far below the range
  of `int` and no height computation overflows; the unbounded model agrees
  with the machine arithmetic on every such tree.  Where a statement admits
  arbitrary cached heights and asserts something about the heights computed
  (the rotations as mutual inverses), the rotations are taken in 32-bit
  arithmetic (`rightRotate32`, `leftRotate32`).
* Functions that dereference a pointer return `Option`: `none` stands for the
  dereference of `NULL` (undefined behaviour in C).  A claim that an operation
  produces a tree is therefore proved as `= some _`.
-/

namespace AVL

/-- A pointer to `struct Node`: `nil` is `NULL`, `node key left right height`
is a pointer to an allocated node with these four fields. -/
inductive Node where
  | nil : Node
  | node (key : Int) (left right : Node) (height : Int) : Node
  deriving DecidableEq

open Node

/-- Source function `newNode(key)`: a fresh leaf, both children `NULL`, height `1`. -/
def newNode (key : Int) : Node := node key nil nil 1

/-- Source function `height(N)`: `0` for `NULL`, else the cached field. -/
def height : Node → Int
  | nil => 0
  | node _ _ _ h => h

/-- Source function `getBalance(N)`: `0` for `NULL`, else `height(left) - height(right)`. -/
def getBalance : Node → Int
  | nil => 0
  | node _ l r _ => height l - height r

/-- The C expression `a > b ? a : b` used in every height update. -/
def tmax (a b : Int) : Int := if a > b then a else b

/-- Source function `rightRotate(y)`: `x = y->left`, `T2 = x->right`; `y` gets `T2` as left
child and becomes the right child of `x`; the height of `y` is recomputed
first, then the height of `x`.  Reading `y->left` or `x->right` through a
`NULL` pointer is `none`.  The two heights are computed in unbounded integers;
`rightRotate32` computes them in `int`, and both functions agree whenever the
two new heights fit in an `int` (`rightRotate32_eq_rightRotate`). -/
def rightRotate : Node → Option Node
  | node ky (node kx xl T2 _) yr _ =>
    let y := node ky T2 yr (1 + tmax (height T2) (height yr))
    some (node kx xl y (1 + tmax (height xl) (height y)))
  | _ => none

/-- Source function `leftRotate(x)`: `y = x->right`, `T2 = y->left`; `x` gets `T2` as right
child and becomes the left child of `y`; the height of `x` is recomputed
first, then the height of `y`.  The two heights are computed in unbounded
integers; `leftRotate32` computes them in `int`, and both functions agree
whenever the two new heights fit in an `int` (`leftRotate32_eq_leftRotate`). -/
def leftRotate : Node → Option Node
  | node kx xl (node ky T2 yr _) _ =>
    let x := node kx xl T2 (1 + tmax (height xl) (height T2))
    some (node ky x yr (1 + tmax (height x) (height yr)))
  | _ => none

/-- The C condition `c && p(n->key)`: `&&` short-circuits, so `n->key` is only
read when `c` holds; reading it through `NULL` is `none`. -/
def andKey (c : Bool) (n : Node) (p : Int → Bool) : Option Bool :=
  if c then
    match n with
    | nil => none
    | node k _ _ _ => some (p k)
  else some false

/-- Lines 78-104 of `insert`, run on the node with key `k` and children `l`,
`r` after the recursive call has stored its result: the cached height is
overwritten, the balance factor computed, and the four rotation cases are
tried in the order of the source. -/
def insertRebalance (k : Int) (l r : Node) (key : Int) : Option Node :=
  let nd := node k l r (1 + tmax (height l) (height r))
  let balance := getBalance nd
  match andKey (decide (balance > 1)) l (fun lk => decide (key < lk)) with
  | none => none
  | some true => rightRotate nd
  | some false =>
  match andKey (decide (balance < -1)) r (fun rk => decide (key > rk)) with
  | none => none
  | some true => leftRotate nd
  | some false =>
  match andKey (decide (balance > 1)) l (fun lk => decide (key > lk)) with
  | none => none
  | some true =>
    (leftRotate l).bind fun l' => rightRotate (node k l' r (height nd))
  | some false =>
  match andKey (decide (balance < -1)) r (fun rk => decide (key < rk)) with
  | none => none
  | some true =>
    (rightRotate r).bind fun r' => leftRotate (node k l r' (height nd))
  | some false => some nd

/-- Source function `insert(node, key)`: a `NULL` node becomes a fresh leaf;
otherwise the key is inserted into the left or the right subtree by comparison
with `node->key` and lines 78-104 run on the node; an equal key returns the
node untouched. -/
def insert : Node → Int → Option Node
  | nil, key => some (newNode key)
  | node k l r h, key =>
    if key < k then
      (insert l key).bind fun l' => insertRebalance k l' r key
    else if key > k then
      (insert r key).bind fun r' => insertRebalance k l r' key
    else some (node k l r h)

/-- Source function `minValueNode(node)`: follow `left` until it is `NULL`; the loop test
reads `current->left`, so a `NULL` start is `none`. -/
def minValueNode : Node → Option Node
  | nil => none
  | node k l r h =>
    match l with
    | nil => some (node k nil r h)
    | node _ _ _ _ => minValueNode l

/-- The field read `n->key`; through `NULL` it is `none`. -/
def keyOf : Node → Option Int
  | nil => none
  | node k _ _ _ => some k

/-- Lines 148-174 of `deleteNode`, run on the non-`NULL` node with key `k` and
children `l`, `r`: the cached height is overwritten, the balance factor
computed, and the four rotation cases are tried in the order of the source,
chosen by the balance factor of the child. -/
def deleteRebalance (k : Int) (l r : Node) : Option Node :=
  let root := node k l r (1 + tmax (height l) (height r))
  let balance := getBalance root
  if balance > 1 ∧ getBalance l ≥ 0 then rightRotate root
  else if balance > 1 ∧ getBalance l < 0 then
    (leftRotate l).bind fun l' => rightRotate (node k l' r (height root))
  else if balance < -1 ∧ getBalance r ≤ 0 then leftRotate root
  else if balance < -1 ∧ getBalance r > 0 then
    (rightRotate r).bind fun r' => leftRotate (node k l r' (height root))
  else some root

/-- Source function `deleteNode(root, key)`.  In the one-child case `*root = *temp` overwrites
all four fields of `root` with those of its only child, so the code after the
`if` runs on the child's key and children.  In the two-child case the key of
the leftmost node of the right subtree replaces the key of `root` and is then
deleted from the right subtree. -/
def deleteNode : Node → Int → Option Node
  | nil, _ => some nil
  | node k l r _, key =>
    if key < k then
      (deleteNode l key).bind fun l' => deleteRebalance k l' r
    else if key > k then
      (deleteNode r key).bind fun r' => deleteRebalance k l r'
    else
      match l, r with
      | nil, nil => some nil
      | nil, node rk rl rr _ => deleteRebalance rk rl rr
      | node lk ll lr _, nil => deleteRebalance lk ll lr
      | node _ _ _ _, node _ _ _ _ =>
        (minValueNode r).bind fun temp =>
        (keyOf temp).bind fun tk =>
        (deleteNode r tk).bind fun r' => deleteRebalance tk l r'

/-- Source function `inOrder(root)`: the keys in the order in which they are printed
(left subtree, node, right subtree). -/
def inOrder : Node → List Int
  | nil => []
  | node k l r _ => inOrder l ++ k :: inOrder r

/-! ## Invariants -/

/-- Strict binary-search-tree order: at every node all keys of the left
subtree are smaller than the node's key and all keys of the right subtree are
larger. -/
def BST : Node → Prop
  | nil => True
  | node k l r _ =>
    (∀ x ∈ inOrder l, x < k) ∧ (∀ x ∈ inOrder r, k < x) ∧ BST l ∧ BST r

/-- Height cache correctness: at every node the cached height is
`1 + max(height(left), height(right))`, with `height(NULL) = 0`. -/
def HeightOK : Node → Prop
  | nil => True
  | node _ l r h => h = 1 + max (height l) (height r) ∧ HeightOK l ∧ HeightOK r

/-- AVL balance: at every node `|height(left) - height(right)| ≤ 1`. -/
def Balanced : Node → Prop
  | nil => True
  | node _ l r _ => |height l - height r| ≤ 1 ∧ Balanced l ∧ Balanced r

/-- The three tree invariants together. -/
def Inv (t : Node) : Prop := BST t ∧ HeightOK t ∧ Balanced t

instance decBST : (t : Node) → Decidable (BST t)
  | nil => isTrue trivial
  | node k l r _ =>
    have := decBST l
    have := decBST r
    inferInstanceAs (Decidable
      ((∀ x ∈ inOrder l, x < k) ∧ (∀ x ∈ inOrder r, k < x) ∧ BST l ∧ BST r))

instance decHeightOK : (t : Node) → Decidable (HeightOK t)
  | nil => isTrue trivial
  | node _ l r h =>
    have := decHeightOK l
    have := decHeightOK r
    inferInstanceAs (Decidable
      (h = 1 + max (height l) (height r) ∧ HeightOK l ∧ HeightOK r))

instance decBalanced : (t : Node) → Decidable (Balanced t)
  | nil => isTrue trivial
  | node _ l r _ =>
    have := decBalanced l
    have := decBalanced r
    inferInstanceAs (Decidable
      (|height l - height r| ≤ 1 ∧ Balanced l ∧ Balanced r))

instance decInv (t : Node) : Decidable (Inv t) :=
  inferInstanceAs (Decidable (BST t ∧ HeightOK t ∧ Balanced t))

/-- Every balance factor of the tree is one of `-1`, `0`, `1`. -/
def BalanceFactorsOK : Node → Prop
  | nil => True
  | node k l r h =>
    (getBalance (node k l r h) = -1 ∨ getBalance (node k l r h) = 0 ∨
      getBalance (node k l r h) = 1) ∧ BalanceFactorsOK l ∧ BalanceFactorsOK r

/-- Where a subtree that has just grown by an insertion of `key` is taller:
it is a fresh leaf, or the side `key` went to is strictly taller. -/
def TallSide (key : Int) : Node → Prop
  | nil => False
  | node k l r _ =>
    (l = nil ∧ r = nil) ∨ (key < k ∧ height r < height l) ∨
      (key > k ∧ height l < height r)

/-! ## Sequences of operations -/

/-- Insert the keys of `ks` one after the other, as the menu loop does with
`root = insert(root, key)`. -/
def insertAll : Node → List Int → Option Node
  | t, [] => some t
  | t, k :: ks => (insert t k).bind fun t' => insertAll t' ks

/-- Delete the keys of `ds` one after the other, as the menu loop does with
`root = deleteNode(root, key)`. -/
def deleteAll : Node → List Int → Option Node
  | t, [] => some t
  | t, k :: ds => (deleteNode t k).bind fun t' => deleteAll t' ds

/-- One public mutation of the tree. -/
inductive Op where
  | ins (key : Int) : Op
  | del (key : Int) : Op
  deriving DecidableEq

/-- Run one mutation on the root. -/
def applyOp (t : Node) : Op → Option Node
  | Op.ins k => insert t k
  | Op.del k => deleteNode t k

/-- Run a finite sequence of mutations on the root, in order. -/
def runOps : Node → List Op → Option Node
  | t, [] => some t
  | t, o :: os => (applyOp t o).bind fun t' => runOps t' os


/-! ## Size -/

/-- Number of allocated nodes of the tree. -/
def size : Node → Nat
  | nil => 0
  | node _ l r _ => size l + size r + 1

/-! ## Instrumented runs

The functions below are `insert` and `deleteNode` once more, statement by
statement, but every pass through the rebalancing code (lines 78-104 and
148-174) also records the balance factor it computed and the branch it took.
The first component of their result is the result of the plain function. -/

/-- The branch taken by one pass through the rebalancing code: one of the four
rotation cases, or the final `return` without rotation. -/
inductive RotCase where
  | fallThrough : RotCase
  | singleRight : RotCase
  | singleLeft : RotCase
  | leftRight : RotCase
  | rightLeft : RotCase
  deriving DecidableEq

/-- What one node on the path records: the value of the local `balance` and
the branch taken. -/
structure Step where
  balance : Int
  rot : RotCase
  deriving DecidableEq

/-- Whether the step took one of the four rotation cases. -/
def Step.rotated (s : Step) : Bool := decide (s.rot ≠ RotCase.fallThrough)

/-- Lines 78-104 of `insert` as in `insertRebalance`, recording the step. -/
def insertRebalanceT (k : Int) (l r : Node) (key : Int) : Option (Node × Step) :=
  let nd := node k l r (1 + tmax (height l) (height r))
  let balance := getBalance nd
  match andKey (decide (balance > 1)) l (fun lk => decide (key < lk)) with
  | none => none
  | some true => (rightRotate nd).map fun t => (t, ⟨balance, RotCase.singleRight⟩)
  | some false =>
  match andKey (decide (balance < -1)) r (fun rk => decide (key > rk)) with
  | none => none
  | some true => (leftRotate nd).map fun t => (t, ⟨balance, RotCase.singleLeft⟩)
  | some false =>
  match andKey (decide (balance > 1)) l (fun lk => decide (key > lk)) with
  | none => none
  | some true =>
    ((leftRotate l).bind fun l' => rightRotate (node k l' r (height nd))).map
      fun t => (t, ⟨balance, RotCase.leftRight⟩)
  | some false =>
  match andKey (decide (balance < -1)) r (fun rk => decide (key < rk)) with
  | none => none
  | some true =>
    ((rightRotate r).bind fun r' => leftRotate (node k l r' (height nd))).map
      fun t => (t, ⟨balance, RotCase.rightLeft⟩)
  | some false => some (nd, ⟨balance, RotCase.fallThrough⟩)

/-- The function `insert` with the steps of the nodes on the insertion path,
the step of the root first.  A `NULL` node and a node holding the key return
before the rebalancing code and record nothing. -/
def insertT : Node → Int → Option (Node × List Step)
  | nil, key => some (newNode key, [])
  | node k l r h, key =>
    if key < k then
      (insertT l key).bind fun p =>
        (insertRebalanceT k p.1 r key).map fun q => (q.1, q.2 :: p.2)
    else if key > k then
      (insertT r key).bind fun p =>
        (insertRebalanceT k l p.1 key).map fun q => (q.1, q.2 :: p.2)
    else some (node k l r h, [])

/-- Lines 148-174 of `deleteNode` as in `deleteRebalance`, recording the
step. -/
def deleteRebalanceT (k : Int) (l r : Node) : Option (Node × Step) :=
  let root := node k l r (1 + tmax (height l) (height r))
  let balance := getBalance root
  if balance > 1 ∧ getBalance l ≥ 0 then
    (rightRotate root).map fun t => (t, ⟨balance, RotCase.singleRight⟩)
  else if balance > 1 ∧ getBalance l < 0 then
    ((leftRotate l).bind fun l' => rightRotate (node k l' r (height root))).map
      fun t => (t, ⟨balance, RotCase.leftRight⟩)
  else if balance < -1 ∧ getBalance r ≤ 0 then
    (leftRotate root).map fun t => (t, ⟨balance, RotCase.singleLeft⟩)
  else if balance < -1 ∧ getBalance r > 0 then
    ((rightRotate r).bind fun r' => leftRotate (node k l r' (height root))).map
      fun t => (t, ⟨balance, RotCase.rightLeft⟩)
  else some (root, ⟨balance, RotCase.fallThrough⟩)

/-- The function `deleteNode` with the steps of the nodes on the deletion
path, the step of the root first.  A `NULL` root and a removed leaf return
before the rebalancing code and record nothing; after a splice the
rebalancing code runs on the fields copied from the only child. -/
def deleteNodeT : Node → Int → Option (Node × List Step)
  | nil, _ => some (nil, [])
  | node k l r _, key =>
    if key < k then
      (deleteNodeT l key).bind fun p =>
        (deleteRebalanceT k p.1 r).map fun q => (q.1, q.2 :: p.2)
    else if key > k then
      (deleteNodeT r key).bind fun p =>
        (deleteRebalanceT k l p.1).map fun q => (q.1, q.2 :: p.2)
    else
      match l, r with
      | nil, nil => some (nil, [])
      | nil, node rk rl rr _ => (deleteRebalanceT rk rl rr).map fun q => (q.1, [q.2])
      | node lk ll lr _, nil => (deleteRebalanceT lk ll lr).map fun q => (q.1, [q.2])
      | node _ _ _ _, node _ _ _ _ =>
        (minValueNode r).bind fun temp =>
        (keyOf temp).bind fun tk =>
        (deleteNodeT r tk).bind fun p =>
          (deleteRebalanceT tk l p.1).map fun q => (q.1, q.2 :: p.2)

/-! ## Variants used for comparison -/

/-- The function `insert` with its four dispatch conditions replaced by those
of `deleteNode`: the rotation is chosen by the balance factor of the child
instead of the position of the inserted key.  Lines 78-83 of `insert` and
lines 148-152 of `deleteNode` are the same statements, so the code that runs
after the recursive call is `deleteRebalance`. -/
def insertByBalance : Node → Int → Option Node
  | nil, key => some (newNode key)
  | node k l r h, key =>
    if key < k then
      (insertByBalance l key).bind fun l' => deleteRebalance k l' r
    else if key > k then
      (insertByBalance r key).bind fun r' => deleteRebalance k l r'
    else some (node k l r h)

/-- The function `rightRotate` with its two height updates exchanged: the
height of the promoted node `x` is recomputed first, from the stale height of
`y`, then the height of the demoted node `y`. -/
def rightRotateSwapped : Node → Option Node
  | node ky (node kx xl T2 _) yr hy =>
    let hx := 1 + tmax (height xl) hy
    some (node kx xl (node ky T2 yr (1 + tmax (height T2) (height yr))) hx)
  | _ => none

/-- The function `leftRotate` with its two height updates exchanged. -/
def leftRotateSwapped : Node → Option Node
  | node kx xl (node ky T2 yr _) hx =>
    let hy := 1 + tmax hx (height yr)
    some (node ky (node kx xl T2 (1 + tmax (height xl) (height T2))) yr hy)
  | _ => none

/-- The AVL tree of height 5 with the fewest nodes (12), keys 1 to 12. -/
def minimalTree5 : Node :=
  node 8
    (node 5
      (node 3 (node 2 (node 1 nil nil 1) nil 2) (node 4 nil nil 1) 3)
      (node 7 (node 6 nil nil 1) nil 2) 4)
    (node 11 (node 10 (node 9 nil nil 1) nil 2) (node 12 nil nil 1) 3) 5

/-! ## Rotations in 32-bit arithmetic

The height field is an `int`.  The definitions above compute `1 + max` in
unbounded integers; the definitions below compute it as the machine does, with
the result reduced to the 32-bit two's complement range. -/

/-- Largest value of an `int`. -/
def INT_MAX : Int := 2147483647

/-- Smallest value of an `int`. -/
def INT_MIN : Int := -2147483648

/-- The values an `int` can hold. -/
def InIntRange (x : Int) : Prop := INT_MIN ≤ x ∧ x ≤ INT_MAX

instance decInIntRange (x : Int) : Decidable (InIntRange x) :=
  inferInstanceAs (Decidable (INT_MIN ≤ x ∧ x ≤ INT_MAX))

/-- The `int` stored when a computation has the mathematical result `x`: the
value congruent to `x` modulo `2^32` in the range of `int`. -/
def wrapInt (x : Int) : Int := (x + 2147483648) % 4294967296 - 2147483648

/-- The height update `1 + (a > b ? a : b)` evaluated in `int`. -/
def heightUpdate32 (a b : Int) : Int := wrapInt (1 + tmax a b)

/-- Source function `rightRotate(y)` with the two height updates of lines
43-44 evaluated in `int`. -/
def rightRotate32 : Node → Option Node
  | node ky (node kx xl T2 _) yr _ =>
    let y := node ky T2 yr (heightUpdate32 (height T2) (height yr))
    some (node kx xl y (heightUpdate32 (height xl) (height y)))
  | _ => none

/-- Source function `leftRotate(x)` with the two height updates of lines
59-60 evaluated in `int`. -/
def leftRotate32 : Node → Option Node
  | node kx xl (node ky T2 yr _) _ =>
    let x := node kx xl T2 (heightUpdate32 (height xl) (height T2))
    some (node ky x yr (heightUpdate32 (height x) (height yr)))
  | _ => none

/-! ## Basic facts -/

theorem tmax_eq (a b : Int) : tmax a b = max a b := by
  unfold tmax; omega

@[simp] theorem height_nil : height nil = 0 := rfl

@[simp] theorem height_node (k : Int) (l r : Node) (h : Int) :
    height (node k l r h) = h := rfl

theorem heightOK_node {k : Int} {l r : Node} {h : Int} :
    HeightOK (node k l r h) ↔
      h = 1 + max (height l) (height r) ∧ HeightOK l ∧ HeightOK r := Iff.rfl

theorem balanced_node {k : Int} {l r : Node} {h : Int} :
    Balanced (node k l r h) ↔
      (height l - height r ≤ 1 ∧ height r - height l ≤ 1) ∧
        Balanced l ∧ Balanced r := by
  show (|height l - height r| ≤ 1 ∧ _) ↔ _
  rw [abs_le]
  constructor
  · rintro ⟨⟨h1, h2⟩, h3⟩; exact ⟨⟨h2, by omega⟩, h3⟩
  · rintro ⟨⟨h1, h2⟩, h3⟩; exact ⟨⟨by omega, h1⟩, h3⟩

theorem height_nonneg {t : Node} (ht : HeightOK t) : 0 ≤ height t := by
  induction t with
  | nil => simp
  | node k l r h ihl ihr =>
    obtain ⟨e, hl, hr⟩ := heightOK_node.1 ht
    have := ihl hl
    have := ihr hr
    simp only [height_node]; omega

theorem height_pos {k : Int} {l r : Node} {h : Int}
    (ht : HeightOK (node k l r h)) : 1 ≤ h := by
  obtain ⟨e, hl, hr⟩ := heightOK_node.1 ht
  have := height_nonneg hl
  have := height_nonneg hr
  omega

theorem deleteRebalance_spec (k : Int) (l r : Node)
    (hl : HeightOK l) (bl : Balanced l) (hr : HeightOK r) (br : Balanced r)
    (hd1 : height l - height r ≤ 2) (hd2 : height r - height l ≤ 2) :
    ∃ t, deleteRebalance k l r = some t ∧ HeightOK t ∧ Balanced t ∧
      inOrder t = inOrder l ++ k :: inOrder r ∧
      (height t = 1 + max (height l) (height r) ∨
        (height t = max (height l) (height r) ∧
          (height l - height r = 2 ∨ height r - height l = 2))) ∧
      (height l - height r ≤ 1 → height r - height l ≤ 1 →
        t = node k l r (1 + max (height l) (height r))) := by
  have nl := height_nonneg hl
  have nr := height_nonneg hr
  by_cases h1 : height l - height r > 1
  · cases l with
    | nil => simp at h1; omega
    | node lk ll lr lh =>
      obtain ⟨e, hll, hlr⟩ := heightOK_node.1 hl
      obtain ⟨⟨b1, b2⟩, bll, blr⟩ := balanced_node.1 bl
      have nll := height_nonneg hll
      have nlr := height_nonneg hlr
      simp only [height_node] at h1 hd1 hd2 nl
      by_cases h2 : height ll - height lr ≥ 0
      · have ev : deleteRebalance k (node lk ll lr lh) r = some
            (node lk ll (node k lr r (1 + max (height lr) (height r)))
              (1 + max (height ll) (1 + max (height lr) (height r)))) := by
          simp only [deleteRebalance, getBalance, height_node]
          rw [if_pos (by omega)]
          simp [rightRotate, tmax_eq]
        refine ⟨_, ev, ?_, ?_, ?_, ?_, ?_⟩
        · simp only [heightOK_node, height_node]
          exact ⟨trivial, hll, trivial, hlr, hr⟩
        · simp only [balanced_node, height_node]
          exact ⟨by omega, bll, by omega, blr, br⟩
        · simp [inOrder]
        · simp only [height_node]; omega
        · simp only [height_node]; intros; omega
      · cases lr with
        | nil => simp at h2 b1 b2 e; omega
        | node mk ml mr mh =>
          obtain ⟨e', hml, hmr⟩ := heightOK_node.1 hlr
          obtain ⟨⟨c1, c2⟩, bml, bmr⟩ := balanced_node.1 blr
          have nml := height_nonneg hml
          have nmr := height_nonneg hmr
          simp only [height_node] at h2 b1 b2 e nlr
          have ev : deleteRebalance k (node lk ll (node mk ml mr mh) lh) r = some
              (node mk (node lk ll ml (1 + max (height ll) (height ml)))
                (node k mr r (1 + max (height mr) (height r)))
                (1 + max (1 + max (height ll) (height ml))
                  (1 + max (height mr) (height r)))) := by
            simp only [deleteRebalance, getBalance, height_node]
            rw [if_neg (by omega), if_pos (by omega)]
            simp [rightRotate, leftRotate, tmax_eq]
          refine ⟨_, ev, ?_, ?_, ?_, ?_, ?_⟩
          · simp only [heightOK_node, height_node]
            exact ⟨trivial, ⟨trivial, hll, hml⟩, trivial, hmr, hr⟩
          · simp only [balanced_node, height_node]
            exact ⟨by omega, ⟨by omega, bll, bml⟩, by omega, bmr, br⟩
          · simp [inOrder]
          · simp only [height_node]; omega
          · simp only [height_node]; intros; omega
  · by_cases h3 : height l - height r < -1
    · cases r with
      | nil => simp at h3; omega
      | node rk rl rr rh =>
        obtain ⟨e, hrl, hrr⟩ := heightOK_node.1 hr
        obtain ⟨⟨b1, b2⟩, brl, brr⟩ := balanced_node.1 br
        have nrl := height_nonneg hrl
        have nrr := height_nonneg hrr
        simp only [height_node] at h1 h3 hd1 hd2 nr
        by_cases h2 : height rl - height rr ≤ 0
        · have ev : deleteRebalance k l (node rk rl rr rh) = some
              (node rk (node k l rl (1 + max (height l) (height rl))) rr
                (1 + max (1 + max (height l) (height rl)) (height rr))) := by
            simp only [deleteRebalance, getBalance, height_node]
            rw [if_neg (by omega), if_neg (by omega), if_pos (by omega)]
            simp [leftRotate, tmax_eq]
          refine ⟨_, ev, ?_, ?_, ?_, ?_, ?_⟩
          · simp only [heightOK_node, height_node]
            exact ⟨trivial, ⟨trivial, hl, hrl⟩, hrr⟩
          · simp only [balanced_node, height_node]
            exact ⟨by omega, ⟨by omega, bl, brl⟩, brr⟩
          · simp [inOrder]
          · simp only [height_node]; omega
          · simp only [height_node]; intros; omega
        · cases rl with
          | nil => simp at h2 b1 b2 e; omega
          | node mk ml mr mh =>
            obtain ⟨e', hml, hmr⟩ := heightOK_node.1 hrl
            obtain ⟨⟨c1, c2⟩, bml, bmr⟩ := balanced_node.1 brl
            have nml := height_nonneg hml
            have nmr := height_nonneg hmr
            simp only [height_node] at h2 b1 b2 e nrl
            have ev : deleteRebalance k l (node rk (node mk ml mr mh) rr rh) = some
                (node mk (node k l ml (1 + max (height l) (height ml)))
                  (node rk mr rr (1 + max (height mr) (height rr)))
                  (1 + max (1 + max (height l) (height ml))
                    (1 + max (height mr) (height rr)))) := by
              simp only [deleteRebalance, getBalance, height_node]
              rw [if_neg (by omega), if_neg (by omega), if_neg (by omega),
                if_pos (by omega)]
              simp [rightRotate, leftRotate, tmax_eq]
            refine ⟨_, ev, ?_, ?_, ?_, ?_, ?_⟩
            · simp only [heightOK_node, height_node]
              exact ⟨trivial, ⟨trivial, hl, hml⟩, trivial, hmr, hrr⟩
            · simp only [balanced_node, height_node]
              exact ⟨by omega, ⟨by omega, bl, bml⟩, by omega, bmr, brr⟩
            · simp [inOrder]
            · simp only [height_node]; omega
            · simp only [height_node]; intros; omega
    · have ev : deleteRebalance k l r =
          some (node k l r (1 + max (height l) (height r))) := by
        simp only [deleteRebalance, getBalance, height_node]
        rw [if_neg (by omega), if_neg (by omega), if_neg (by omega),
          if_neg (by omega)]
        simp [tmax_eq]
      refine ⟨_, ev, ?_, ?_, ?_, ?_, ?_⟩
      · exact heightOK_node.2 ⟨rfl, hl, hr⟩
      · exact balanced_node.2 ⟨⟨by omega, by omega⟩, bl, br⟩
      · simp [inOrder]
      · exact Or.inl rfl
      · intros; rfl
theorem insertRebalance_spec (k : Int) (l r : Node) (key : Int)
    (hl : HeightOK l) (bl : Balanced l) (hr : HeightOK r) (br : Balanced r)
    (hd1 : height l - height r ≤ 2) (hd2 : height r - height l ≤ 2)
    (gl : height l - height r = 2 → TallSide key l)
    (gr : height r - height l = 2 → TallSide key r) :
    ∃ t, insertRebalance k l r key = some t ∧ HeightOK t ∧ Balanced t ∧
      inOrder t = inOrder l ++ k :: inOrder r ∧
      (height l - height r ≤ 1 → height r - height l ≤ 1 →
        t = node k l r (1 + max (height l) (height r))) ∧
      (height l - height r = 2 ∨ height r - height l = 2 →
        height t = max (height l) (height r)) := by
  have nl := height_nonneg hl
  have nr := height_nonneg hr
  by_cases h1 : height l - height r > 1
  · cases l with
    | nil => simp at h1; omega
    | node lk ll lr lh =>
      obtain ⟨e, hll, hlr⟩ := heightOK_node.1 hl
      obtain ⟨⟨b1, b2⟩, bll, blr⟩ := balanced_node.1 bl
      have nll := height_nonneg hll
      have nlr := height_nonneg hlr
      simp only [height_node] at h1 hd1 hd2 nl gl
      rcases gl (by omega) with ⟨rfl, rfl⟩ | ⟨hk, hh⟩ | ⟨hk, hh⟩
      · simp at e; omega
      · have ev : insertRebalance k (node lk ll lr lh) r key = some
            (node lk ll (node k lr r (1 + max (height lr) (height r)))
              (1 + max (height ll) (1 + max (height lr) (height r)))) := by
          simp [insertRebalance, andKey, getBalance, h1, hk, rightRotate, tmax_eq]
        refine ⟨_, ev, ?_, ?_, ?_, ?_, ?_⟩
        · simp only [heightOK_node, height_node]
          exact ⟨trivial, hll, trivial, hlr, hr⟩
        · simp only [balanced_node, height_node]
          exact ⟨by omega, bll, by omega, blr, br⟩
        · simp [inOrder]
        · simp only [height_node]; intros; omega
        · simp only [height_node]; intros; omega
      · cases lr with
        | nil => simp at hh; omega
        | node mk ml mr mh =>
          obtain ⟨e', hml, hmr⟩ := heightOK_node.1 hlr
          obtain ⟨⟨c1, c2⟩, bml, bmr⟩ := balanced_node.1 blr
          have nml := height_nonneg hml
          have nmr := height_nonneg hmr
          simp only [height_node] at hh b1 b2 e nlr
          have ev : insertRebalance k (node lk ll (node mk ml mr mh) lh) r key = some
              (node mk (node lk ll ml (1 + max (height ll) (height ml)))
                (node k mr r (1 + max (height mr) (height r)))
                (1 + max (1 + max (height ll) (height ml))
                  (1 + max (height mr) (height r)))) := by
            have hk' : ¬ key < lk := by omega
            have h3 : ¬ lh - height r < -1 := by omega
            simp [insertRebalance, andKey, getBalance, h1, hk, hk', h3, rightRotate,
              leftRotate, tmax_eq]
          refine ⟨_, ev, ?_, ?_, ?_, ?_, ?_⟩
          · simp only [heightOK_node, height_node]
            exact ⟨trivial, ⟨trivial, hll, hml⟩, trivial, hmr, hr⟩
          · simp only [balanced_node, height_node]
            exact ⟨by omega, ⟨by omega, bll, bml⟩, by omega, bmr, br⟩
          · simp [inOrder]
          · simp only [height_node]; intros; omega
          · simp only [height_node]; intros; omega
  · by_cases h3 : height l - height r < -1
    · cases r with
      | nil => simp at h3; omega
      | node rk rl rr rh =>
        obtain ⟨e, hrl, hrr⟩ := heightOK_node.1 hr
        obtain ⟨⟨b1, b2⟩, brl, brr⟩ := balanced_node.1 br
        have nrl := height_nonneg hrl
        have nrr := height_nonneg hrr
        simp only [height_node] at h1 h3 hd1 hd2 nr gr
        rcases gr (by omega) with ⟨rfl, rfl⟩ | ⟨hk, hh⟩ | ⟨hk, hh⟩
        · simp at e; omega
        · cases rl with
          | nil => simp at hh; omega
          | node mk ml mr mh =>
            obtain ⟨e', hml, hmr⟩ := heightOK_node.1 hrl
            obtain ⟨⟨c1, c2⟩, bml, bmr⟩ := balanced_node.1 brl
            have nml := height_nonneg hml
            have nmr := height_nonneg hmr
            simp only [height_node] at hh b1 b2 e nrl
            have ev : insertRebalance k l (node rk (node mk ml mr mh) rr rh) key = some
                (node mk (node k l ml (1 + max (height l) (height ml)))
                  (node rk mr rr (1 + max (height mr) (height rr)))
                  (1 + max (1 + max (height l) (height ml))
                    (1 + max (height mr) (height rr)))) := by
              have hk' : ¬ key > rk := by omega
              simp [insertRebalance, andKey, getBalance, h1, h3, hk, hk', rightRotate,
                leftRotate, tmax_eq]
            refine ⟨_, ev, ?_, ?_, ?_, ?_, ?_⟩
            · simp only [heightOK_node, height_node]
              exact ⟨trivial, ⟨trivial, hl, hml⟩, trivial, hmr, hrr⟩
            · simp only [balanced_node, height_node]
              exact ⟨by omega, ⟨by omega, bl, bml⟩, by omega, bmr, brr⟩
            · simp [inOrder]
            · simp only [height_node]; intros; omega
            · simp only [height_node]; intros; omega
        · have ev : insertRebalance k l (node rk rl rr rh) key = some
              (node rk (node k l rl (1 + max (height l) (height rl))) rr
                (1 + max (1 + max (height l) (height rl)) (height rr))) := by
            simp [insertRebalance, andKey, getBalance, h1, h3, hk, leftRotate, tmax_eq]
          refine ⟨_, ev, ?_, ?_, ?_, ?_, ?_⟩
          · simp only [heightOK_node, height_node]
            exact ⟨trivial, ⟨trivial, hl, hrl⟩, hrr⟩
          · simp only [balanced_node, height_node]
            exact ⟨by omega, ⟨by omega, bl, brl⟩, brr⟩
          · simp [inOrder]
          · simp only [height_node]; intros; omega
          · simp only [height_node]; intros; omega
    · have ev : insertRebalance k l r key =
          some (node k l r (1 + max (height l) (height r))) := by
        simp [insertRebalance, andKey, getBalance, h1, h3, tmax_eq]
      refine ⟨_, ev, ?_, ?_, ?_, ?_, ?_⟩
      · exact heightOK_node.2 ⟨rfl, hl, hr⟩
      · exact balanced_node.2 ⟨⟨by omega, by omega⟩, bl, br⟩
      · simp [inOrder]
      · intros; rfl
      · intro h; omega

/-! ## Rotations and the in-order sequence -/

theorem rightRotate_inOrder {y t : Node} (h : rightRotate y = some t) :
    inOrder t = inOrder y := by
  cases y with
  | nil => simp [rightRotate] at h
  | node ky x yr hy =>
    cases x with
    | nil => simp [rightRotate] at h
    | node kx xl T2 hx =>
      simp only [rightRotate, Option.some.injEq] at h
      subst h
      simp [inOrder]

theorem leftRotate_inOrder {x t : Node} (h : leftRotate x = some t) :
    inOrder t = inOrder x := by
  cases x with
  | nil => simp [leftRotate] at h
  | node kx xl y hx =>
    cases y with
    | nil => simp [leftRotate] at h
    | node ky T2 yr hy =>
      simp only [leftRotate, Option.some.injEq] at h
      subst h
      simp [inOrder]

theorem doubleLR_inOrder {k : Int} {l r t : Node} {h : Int}
    (e : ((leftRotate l).bind fun l' => rightRotate (node k l' r h)) = some t) :
    inOrder t = inOrder l ++ k :: inOrder r := by
  obtain ⟨l', e1, e2⟩ := Option.bind_eq_some.1 e
  rw [rightRotate_inOrder e2]
  simp [inOrder, leftRotate_inOrder e1]

theorem doubleRL_inOrder {k : Int} {l r t : Node} {h : Int}
    (e : ((rightRotate r).bind fun r' => leftRotate (node k l r' h)) = some t) :
    inOrder t = inOrder l ++ k :: inOrder r := by
  obtain ⟨r', e1, e2⟩ := Option.bind_eq_some.1 e
  rw [leftRotate_inOrder e2]
  simp [inOrder, rightRotate_inOrder e1]

theorem deleteRebalance_inOrder {k : Int} {l r t : Node}
    (e : deleteRebalance k l r = some t) :
    inOrder t = inOrder l ++ k :: inOrder r := by
  unfold deleteRebalance at e
  simp only at e
  split_ifs at e
  · simpa [inOrder] using rightRotate_inOrder e
  · exact doubleLR_inOrder e
  · simpa [inOrder] using leftRotate_inOrder e
  · exact doubleRL_inOrder e
  · simp only [Option.some.injEq] at e
    subst e
    rfl

theorem insertRebalance_inOrder {k : Int} {l r t : Node} {key : Int}
    (e : insertRebalance k l r key = some t) :
    inOrder t = inOrder l ++ k :: inOrder r := by
  unfold insertRebalance at e
  simp only at e
  split at e
  · simp at e
  · simpa [inOrder] using rightRotate_inOrder e
  · split at e
    · simp at e
    · simpa [inOrder] using leftRotate_inOrder e
    · split at e
      · simp at e
      · exact doubleLR_inOrder e
      · split at e
        · simp at e
        · exact doubleRL_inOrder e
        · simp only [Option.some.injEq] at e
          subst e
          rfl


/-! ## Shape of `insert` -/

theorem insert_avl (t : Node) (key : Int) (ht : HeightOK t) (bt : Balanced t) :
    ∃ t', insert t key = some t' ∧ HeightOK t' ∧ Balanced t' ∧
      (height t' = height t ∨ (height t' = height t + 1 ∧ TallSide key t')) := by
  induction t with
  | nil =>
    refine ⟨newNode key, rfl, ?_, ?_, Or.inr ⟨rfl, Or.inl ⟨rfl, rfl⟩⟩⟩
    · exact heightOK_node.2 ⟨rfl, trivial, trivial⟩
    · exact balanced_node.2 ⟨⟨by simp, by simp⟩, trivial, trivial⟩
  | node k l r h ihl ihr =>
    obtain ⟨e, hl, hr⟩ := heightOK_node.1 ht
    obtain ⟨⟨b1, b2⟩, bl, br⟩ := balanced_node.1 bt
    by_cases c1 : key < k
    · obtain ⟨l', el, hl', bl', hh⟩ := ihl hl bl
      obtain ⟨t, et, h1, h2, -, h4, h5⟩ := insertRebalance_spec k l' r key hl' bl' hr br
        (by omega) (by omega)
        (fun d => by
          rcases hh with hh | ⟨-, g⟩
          · omega
          · exact g)
        (fun d => by omega)
      refine ⟨t, by simp [insert, c1, el, et], h1, h2, ?_⟩
      simp only [height_node]
      by_cases d : height l' - height r ≤ 1
      · have := h4 d (by omega)
        subst this
        simp only [height_node]
        by_cases g : 1 + max (height l') (height r) = h
        · exact Or.inl g
        · exact Or.inr ⟨by omega, Or.inr (Or.inl ⟨c1, by omega⟩)⟩
      · have := h5 (Or.inl (by omega))
        exact Or.inl (by omega)
    · by_cases c2 : key > k
      · obtain ⟨r', er, hr', br', hh⟩ := ihr hr br
        obtain ⟨t, et, h1, h2, -, h4, h5⟩ := insertRebalance_spec k l r' key hl bl hr' br'
          (by omega) (by omega)
          (fun d => by omega)
          (fun d => by
            rcases hh with hh | ⟨-, g⟩
            · omega
            · exact g)
        refine ⟨t, by simp [insert, c1, c2, er, et], h1, h2, ?_⟩
        simp only [height_node]
        by_cases d : height r' - height l ≤ 1
        · have := h4 (by omega) d
          subst this
          simp only [height_node]
          by_cases g : 1 + max (height l) (height r') = h
          · exact Or.inl g
          · exact Or.inr ⟨by omega, Or.inr (Or.inr ⟨c2, by omega⟩)⟩
        · have := h5 (Or.inr (by omega))
          exact Or.inl (by omega)
      · exact ⟨node k l r h, by simp [insert, c1, c2], ht, bt, Or.inl rfl⟩

/-! ## `minValueNode` -/

theorem minValueNode_spec (k : Int) (l r : Node) (h : Int) :
    ∃ mk mr mh rest, minValueNode (node k l r h) = some (node mk nil mr mh) ∧
      inOrder (node k l r h) = mk :: rest := by
  induction l generalizing k r h with
  | nil => exact ⟨k, r, h, inOrder r, rfl, rfl⟩
  | node lk ll lr lh ihl _ =>
    obtain ⟨mk, mr, mh, rest, e1, e2⟩ := ihl lk lr lh
    refine ⟨mk, mr, mh, rest ++ k :: inOrder r, ?_, ?_⟩
    · rw [minValueNode]; exact e1
    · rw [inOrder, e2]; rfl

/-! ## Shape of `deleteNode` -/

theorem deleteNode_avl (t : Node) (key : Int) (ht : HeightOK t) (bt : Balanced t) :
    ∃ t', deleteNode t key = some t' ∧ HeightOK t' ∧ Balanced t' ∧
      (height t' = height t ∨ height t' + 1 = height t) := by
  induction t generalizing key with
  | nil => exact ⟨nil, rfl, trivial, trivial, Or.inl rfl⟩
  | node k l r h ihl ihr =>
    obtain ⟨e, hl, hr⟩ := heightOK_node.1 ht
    obtain ⟨⟨b1, b2⟩, bl, br⟩ := balanced_node.1 bt
    have nl := height_nonneg hl
    have nr := height_nonneg hr
    by_cases c1 : key < k
    · obtain ⟨l', el, hl', bl', hh⟩ := ihl key hl bl
      have nl' := height_nonneg hl'
      obtain ⟨t, et, h1, h2, -, h4, -⟩ := deleteRebalance_spec k l' r hl' bl' hr br
        (by omega) (by omega)
      refine ⟨t, by simp [deleteNode, c1, el, et], h1, h2, ?_⟩
      simp only [height_node]
      omega
    · by_cases c2 : key > k
      · obtain ⟨r', er, hr', br', hh⟩ := ihr key hr br
        have nr' := height_nonneg hr'
        obtain ⟨t, et, h1, h2, -, h4, -⟩ := deleteRebalance_spec k l r' hl bl hr' br'
          (by omega) (by omega)
        refine ⟨t, by simp [deleteNode, c1, c2, er, et], h1, h2, ?_⟩
        simp only [height_node]
        omega
      · cases l with
        | nil =>
          cases r with
          | nil =>
            refine ⟨nil, by simp [deleteNode, c1, c2], trivial, trivial, ?_⟩
            simp at e ⊢; omega
          | node rk rl rr rh =>
            obtain ⟨e', hrl, hrr⟩ := heightOK_node.1 hr
            obtain ⟨⟨d1, d2⟩, brl, brr⟩ := balanced_node.1 br
            obtain ⟨t, et, h1, h2, -, h4, -⟩ := deleteRebalance_spec rk rl rr hrl brl hrr brr
              (by omega) (by omega)
            refine ⟨t, by simp [deleteNode, c1, c2, et], h1, h2, ?_⟩
            simp only [height_node, height_nil] at *
            omega
        | node lk ll lr lh =>
          cases r with
          | nil =>
            obtain ⟨e', hll, hlr⟩ := heightOK_node.1 hl
            obtain ⟨⟨d1, d2⟩, bll, blr⟩ := balanced_node.1 bl
            obtain ⟨t, et, h1, h2, -, h4, -⟩ := deleteRebalance_spec lk ll lr hll bll hlr blr
              (by omega) (by omega)
            refine ⟨t, by simp [deleteNode, c1, c2, et], h1, h2, ?_⟩
            simp only [height_node, height_nil] at *
            omega
          | node rk rl rr rh =>
            obtain ⟨mk, mr, mh, rest, em, -⟩ := minValueNode_spec rk rl rr rh
            obtain ⟨r', er, hr', br', hh⟩ := ihr mk hr br
            have nr' := height_nonneg hr'
            obtain ⟨t, et, h1, h2, -, h4, -⟩ := deleteRebalance_spec mk
              (node lk ll lr lh) r' hl bl hr' br' (by omega) (by omega)
            have ev : deleteNode (node k (node lk ll lr lh) (node rk rl rr rh) h) key =
                some t := by
              rw [deleteNode, if_neg c1, if_neg c2]
              simp only [em, keyOf, Option.some_bind, er, et]
            refine ⟨t, ev, h1, h2, ?_⟩
            simp only [height_node] at *
            omega


/-! ## Search-tree order and the in-order sequence -/

theorem bst_iff_sorted (t : Node) : BST t ↔ (inOrder t).Pairwise (· < ·) := by
  induction t with
  | nil => simp [BST, inOrder]
  | node k l r h ihl ihr =>
    simp only [BST, inOrder, List.pairwise_append, List.pairwise_cons, ihl, ihr,
      List.mem_cons]
    constructor
    · rintro ⟨h1, h2, h3, h4⟩
      refine ⟨h3, ⟨h2, h4⟩, ?_⟩
      rintro a ha b (rfl | hb)
      · exact h1 a ha
      · exact lt_trans (h1 a ha) (h2 b hb)
    · rintro ⟨h1, ⟨h2, h3⟩, h4⟩
      exact ⟨fun x hx => h4 x hx k (Or.inl rfl), h2, h1, h3⟩

theorem insert_inOrder {t t' : Node} {key : Int} (e : insert t key = some t')
    (hb : BST t) :
    (key ∈ inOrder t ∧ inOrder t' = inOrder t) ∨
    (key ∉ inOrder t ∧ ∃ pre post, inOrder t = pre ++ post ∧
      inOrder t' = pre ++ key :: post ∧ (∀ x ∈ pre, x < key) ∧
      ∀ x ∈ post, key < x) := by
  induction t generalizing t' with
  | nil =>
    simp only [insert, newNode, Option.some.injEq] at e
    subst e
    exact Or.inr ⟨by simp [inOrder], [], [], by simp [inOrder]⟩
  | node k l r h ihl ihr =>
    obtain ⟨b1, b2, bl, br⟩ := hb
    by_cases c1 : key < k
    · rw [insert, if_pos c1] at e
      obtain ⟨l', el, et⟩ := Option.bind_eq_some.1 e
      have io := insertRebalance_inOrder et
      rcases ihl el bl with ⟨m, q⟩ | ⟨m, pre, post, q1, q2, q3, q4⟩
      · exact Or.inl ⟨by simp [inOrder, m], by rw [io, q]; rfl⟩
      · refine Or.inr ⟨?_, pre, post ++ k :: inOrder r, ?_, ?_, q3, ?_⟩
        · simp only [inOrder, List.mem_append, List.mem_cons, not_or]
          exact ⟨m, by omega, fun hr => by have := b2 _ hr; omega⟩
        · simp [inOrder, q1]
        · simp [io, q2]
        · intro x hx
          rcases List.mem_append.1 hx with hx | hx
          · exact q4 x hx
          · rcases List.mem_cons.1 hx with rfl | hx
            · exact c1
            · exact lt_trans c1 (b2 x hx)
    · by_cases c2 : key > k
      · rw [insert, if_neg c1, if_pos c2] at e
        obtain ⟨r', er, et⟩ := Option.bind_eq_some.1 e
        have io := insertRebalance_inOrder et
        rcases ihr er br with ⟨m, q⟩ | ⟨m, pre, post, q1, q2, q3, q4⟩
        · exact Or.inl ⟨by simp [inOrder, m], by rw [io, q]; rfl⟩
        · refine Or.inr ⟨?_, inOrder l ++ k :: pre, post, ?_, ?_, ?_, q4⟩
          · simp only [inOrder, List.mem_append, List.mem_cons, not_or]
            exact ⟨fun hl => by have := b1 _ hl; omega, by omega, m⟩
          · simp [inOrder, q1]
          · simp [io, q2]
          · intro x hx
            rcases List.mem_append.1 hx with hx | hx
            · exact lt_trans (b1 x hx) c2
            · rcases List.mem_cons.1 hx with rfl | hx
              · exact c2
              · exact q3 x hx
      · rw [insert, if_neg c1, if_neg c2] at e
        simp only [Option.some.injEq] at e
        subst e
        have : key = k := by omega
        exact Or.inl ⟨by simp [inOrder, this], rfl⟩

theorem orderedInsert_split (key : Int) (pre post : List Int)
    (h1 : ∀ x ∈ pre, x < key) (h2 : ∀ x ∈ post, key < x) :
    List.orderedInsert (· ≤ ·) key (pre ++ post) = pre ++ key :: post := by
  induction pre with
  | nil =>
    cases post with
    | nil => rfl
    | cons p ps =>
      have := h2 p (List.mem_cons_self _ _)
      simp [List.orderedInsert, le_of_lt this]
  | cons p ps ih =>
    have hp := h1 p (List.mem_cons_self _ _)
    have := ih (fun x hx => h1 x (List.mem_cons_of_mem _ hx))
    simp [List.orderedInsert, not_le.2 hp, this]

theorem sorted_split_insert (key : Int) (pre post : List Int)
    (hs : (pre ++ post).Pairwise (· < ·))
    (h1 : ∀ x ∈ pre, x < key) (h2 : ∀ x ∈ post, key < x) :
    (pre ++ key :: post).Pairwise (· < ·) := by
  rw [List.pairwise_append] at hs ⊢
  obtain ⟨s1, s2, s3⟩ := hs
  refine ⟨s1, List.pairwise_cons.2 ⟨h2, s2⟩, ?_⟩
  intro a ha b hb
  rcases List.mem_cons.1 hb with rfl | hb
  · exact h1 a ha
  · exact s3 a ha b hb

theorem deleteNode_lt {k key : Int} (l r : Node) (h : Int) (c : key < k) :
    deleteNode (node k l r h) key =
      (deleteNode l key).bind fun l' => deleteRebalance k l' r := by
  rw [deleteNode.eq_def]
  simp only [if_pos c]

theorem deleteNode_gt {k key : Int} (l r : Node) (h : Int) (c : key > k) :
    deleteNode (node k l r h) key =
      (deleteNode r key).bind fun r' => deleteRebalance k l r' := by
  rw [deleteNode.eq_def]
  simp only [if_neg (not_lt.2 (le_of_lt c)), if_pos c]

theorem deleteNode_eq (k : Int) (l r : Node) (h : Int) :
    deleteNode (node k l r h) k =
      match l, r with
      | nil, nil => some nil
      | nil, node rk rl rr _ => deleteRebalance rk rl rr
      | node lk ll lr _, nil => deleteRebalance lk ll lr
      | node _ _ _ _, node _ _ _ _ =>
        (minValueNode r).bind fun temp =>
        (keyOf temp).bind fun tk =>
        (deleteNode r tk).bind fun r' => deleteRebalance tk l r' := by
  rw [deleteNode.eq_def]
  simp only [lt_irrefl, gt_iff_lt, if_false]

theorem deleteNode_inOrder {t t' : Node} {key : Int} (e : deleteNode t key = some t')
    (hb : BST t) : inOrder t' = (inOrder t).erase key := by
  induction t generalizing t' key with
  | nil =>
    simp only [deleteNode, Option.some.injEq] at e
    subst e
    rfl
  | node k l r h ihl ihr =>
    obtain ⟨b1, b2, bl, br⟩ := hb
    by_cases c1 : key < k
    · rw [deleteNode_lt l r h c1] at e
      obtain ⟨l', el, et⟩ := Option.bind_eq_some.1 e
      rw [deleteRebalance_inOrder et, ihl el bl]
      have nr : key ∉ inOrder r := fun hr => by have := b2 _ hr; omega
      have nk : ¬ k = key := by omega
      by_cases m : key ∈ inOrder l
      · simp [inOrder, List.erase_append_left _ m]
      · simp [inOrder, List.erase_append_right _ m, List.erase_cons_tail, nk,
          List.erase_of_not_mem nr, List.erase_of_not_mem m]
    · have nl : key ∉ inOrder l := fun hl => by have := b1 _ hl; omega
      by_cases c2 : key > k
      · rw [deleteNode_gt l r h c2] at e
        obtain ⟨r', er, et⟩ := Option.bind_eq_some.1 e
        rw [deleteRebalance_inOrder et, ihr er br]
        have nk : ¬ k = key := by omega
        simp [inOrder, List.erase_append_right _ nl, List.erase_cons_tail, nk]
      · have hk : key = k := by omega
        subst hk
        have goalR : (inOrder (node key l r h)).erase key = inOrder l ++ inOrder r := by
          simp [inOrder, List.erase_append_right _ nl]
        rw [goalR]
        rw [deleteNode_eq] at e
        cases l with
        | nil =>
          cases r with
          | nil =>
            simp only [Option.some.injEq] at e
            subst e
            rfl
          | node rk rl rr rh =>
            simp only at e
            rw [deleteRebalance_inOrder e]
            rfl
        | node lk ll lr lh =>
          cases r with
          | nil =>
            simp only at e
            rw [deleteRebalance_inOrder e]
            simp [inOrder]
          | node rk rl rr rh =>
            simp only at e
            obtain ⟨mk, mr, mh, rest, em, eo⟩ := minValueNode_spec rk rl rr rh
            simp only [em, keyOf, Option.some_bind] at e
            obtain ⟨r', er, et⟩ := Option.bind_eq_some.1 e
            rw [deleteRebalance_inOrder et, ihr er br, eo]
            simp

/-! ## Invariant preservation -/

theorem inv_nil : Inv nil := ⟨trivial, trivial, trivial⟩

theorem insert_inv (t : Node) (k : Int) (ht : Inv t) :
    ∃ t', insert t k = some t' ∧ Inv t' := by
  obtain ⟨hb, hh, hbal⟩ := ht
  obtain ⟨t', e, h1, h2, -⟩ := insert_avl t k hh hbal
  refine ⟨t', e, ?_, h1, h2⟩
  have io := insert_inOrder e hb
  rw [bst_iff_sorted] at hb ⊢
  rcases io with ⟨-, q⟩ | ⟨-, pre, post, q1, q2, q3, q4⟩
  · rw [q]; exact hb
  · rw [q2]; exact sorted_split_insert _ _ _ (q1 ▸ hb) q3 q4

theorem deleteNode_inv (t : Node) (k : Int) (ht : Inv t) :
    ∃ t', deleteNode t k = some t' ∧ Inv t' := by
  obtain ⟨hb, hh, hbal⟩ := ht
  obtain ⟨t', e, h1, h2, -⟩ := deleteNode_avl t k hh hbal
  refine ⟨t', e, ?_, h1, h2⟩
  have io := deleteNode_inOrder e hb
  rw [bst_iff_sorted] at hb ⊢
  rw [io]
  exact hb.sublist (List.erase_sublist _ _)

theorem insertAll_inv (t : Node) (ks : List Int) (ht : Inv t) :
    ∃ u, insertAll t ks = some u ∧ Inv u ∧
      ∀ x, x ∈ inOrder u ↔ x ∈ inOrder t ∨ x ∈ ks := by
  induction ks generalizing t with
  | nil => exact ⟨t, rfl, ht, by simp⟩
  | cons k ks ih =>
    obtain ⟨t', e, ht'⟩ := insert_inv t k ht
    obtain ⟨u, eu, hu, hm⟩ := ih t' ht'
    refine ⟨u, by simp [insertAll, e, eu], hu, ?_⟩
    intro x
    rw [hm x]
    rcases insert_inOrder e ht.1 with ⟨m, q⟩ | ⟨-, pre, post, q1, q2, -, -⟩
    · rw [q]
      simp only [List.mem_cons]
      constructor
      · rintro (h | h)
        · exact Or.inl h
        · exact Or.inr (Or.inr h)
      · rintro (h | rfl | h)
        · exact Or.inl h
        · exact Or.inl m
        · exact Or.inr h
    · rw [q1, q2]
      simp only [List.mem_append, List.mem_cons]
      tauto

theorem balanceFactorsOK_of_balanced {t : Node} (h : Balanced t) :
    BalanceFactorsOK t := by
  induction t with
  | nil => trivial
  | node k l r h' ihl ihr =>
    obtain ⟨⟨b1, b2⟩, bl, br⟩ := balanced_node.1 h
    refine ⟨?_, ihl bl, ihr br⟩
    simp only [getBalance]
    omega

/-! ## Claims -/

/-- C1: `insert` preserves the tree invariants.  For every tree `t` with
strict BST order, correct cached heights and AVL balance and every key `k`,
`insert t k` returns a tree that satisfies the three invariants again; the
empty tree satisfies them, and so does the tree built from it by inserting
any list of keys `ks`. -/
theorem insert_preserves_invariants (t : Node) (k : Int) (ks : List Int)
    (ht : Inv t) :
    (∃ t', insert t k = some t' ∧ BST t' ∧ HeightOK t' ∧ Balanced t') ∧
      Inv nil ∧
      ∃ u, insertAll nil ks = some u ∧ BST u ∧ HeightOK u ∧ Balanced u := by
  refine ⟨insert_inv t k ht, inv_nil, ?_⟩
  obtain ⟨u, e, hu, -⟩ := insertAll_inv nil ks inv_nil
  exact ⟨u, e, hu⟩

theorem insert_preserves_invariants_witness :
    Inv (node 20 (node 10 nil nil 1) (node 30 nil nil 1) 2) ∧
    ((∃ t', insert (node 20 (node 10 nil nil 1) (node 30 nil nil 1) 2) 25 = some t' ∧
        BST t' ∧ HeightOK t' ∧ Balanced t') ∧
      Inv nil ∧
      ∃ u, insertAll nil [3, 1, 2] = some u ∧ BST u ∧ HeightOK u ∧ Balanced u) :=
  ⟨by decide, insert_preserves_invariants _ 25 [3, 1, 2] (by decide)⟩

/-- C2: `deleteNode` preserves the tree invariants.  For every tree `t` with
strict BST order, correct cached heights and AVL balance and every key `k`
(present or not), `deleteNode t k` returns a tree that satisfies the three
invariants again, and every balance factor of the result is `-1`, `0` or
`1`. -/
theorem deleteNode_preserves_invariants (t : Node) (k : Int) (ht : Inv t) :
    ∃ t', deleteNode t k = some t' ∧ BST t' ∧ HeightOK t' ∧ Balanced t' ∧
      BalanceFactorsOK t' := by
  obtain ⟨t', e, hb, hh, hbal⟩ := deleteNode_inv t k ht
  exact ⟨t', e, hb, hh, hbal, balanceFactorsOK_of_balanced hbal⟩

theorem deleteNode_preserves_invariants_witness :
    Inv (node 20 (node 10 nil nil 1) (node 30 nil (node 40 nil nil 1) 2) 3) ∧
    ∃ t', deleteNode (node 20 (node 10 nil nil 1) (node 30 nil (node 40 nil nil 1) 2) 3)
        10 = some t' ∧ BST t' ∧ HeightOK t' ∧ Balanced t' ∧ BalanceFactorsOK t' :=
  ⟨by decide, deleteNode_preserves_invariants _ 10 (by decide)⟩

/-- C3: `insert` adds exactly the key.  For every tree `t` satisfying the
invariants and every key `k`, `insert t k` returns a tree whose in-order
sequence is that of `t` with `k` inserted at its sorted position when `k` is
not a key of `t`, and is that of `t` when `k` is a key of `t`; inserting into
the empty tree gives the single node `k` of height `1` without children. -/
theorem insert_adds_exactly_key (t : Node) (k : Int) (ht : Inv t) :
    (∃ t', insert t k = some t' ∧
      (k ∉ inOrder t →
        inOrder t' = List.orderedInsert (fun a b : Int => a ≤ b) k (inOrder t)) ∧
      (k ∈ inOrder t → inOrder t' = inOrder t)) ∧
    insert nil k = some (node k nil nil 1) := by
  obtain ⟨t', e, -⟩ := insert_inv t k ht
  refine ⟨⟨t', e, ?_, ?_⟩, rfl⟩
  · intro hk
    rcases insert_inOrder e ht.1 with ⟨m, -⟩ | ⟨-, pre, post, q1, q2, q3, q4⟩
    · exact absurd m hk
    · rw [q1, q2, orderedInsert_split k pre post q3 q4]
  · intro hk
    rcases insert_inOrder e ht.1 with ⟨-, q⟩ | ⟨m, -⟩
    · exact q
    · exact absurd hk m

theorem insert_adds_exactly_key_witness :
    Inv (node 20 (node 10 nil nil 1) (node 30 nil nil 1) 2) ∧
    ((∃ t', insert (node 20 (node 10 nil nil 1) (node 30 nil nil 1) 2) 25 = some t' ∧
      (25 ∉ inOrder (node 20 (node 10 nil nil 1) (node 30 nil nil 1) 2) →
        inOrder t' = List.orderedInsert (fun a b : Int => a ≤ b) 25
          (inOrder (node 20 (node 10 nil nil 1) (node 30 nil nil 1) 2))) ∧
      (25 ∈ inOrder (node 20 (node 10 nil nil 1) (node 30 nil nil 1) 2) →
        inOrder t' = inOrder (node 20 (node 10 nil nil 1) (node 30 nil nil 1) 2))) ∧
    insert nil 25 = some (node 25 nil nil 1)) :=
  ⟨by decide, insert_adds_exactly_key _ 25 (by decide)⟩

/-- C4: `deleteNode` removes exactly the key.  For every tree `t` satisfying
the invariants and every key `k`, `deleteNode t k` returns a tree whose
in-order sequence is that of `t` with `k` removed: it is the sequence of `t`
without its entry `k`, it keeps every other key and adds none, and it is the
sequence of `t` itself when `k` is not a key of `t`.  The tree built by
inserting 9, 5, 10, 0, 6, 11, -1, 1, 2 and then deleting 10 lists
-1, 0, 1, 2, 5, 6, 9, 11. -/
theorem deleteNode_removes_exactly_key (t : Node) (k : Int) (ht : Inv t) :
    (∃ t', deleteNode t k = some t' ∧
      inOrder t' = (inOrder t).erase k ∧
      inOrder t' = (inOrder t).filter (fun x => x != k) ∧
      (k ∉ inOrder t → inOrder t' = inOrder t)) ∧
    ((insertAll nil [9, 5, 10, 0, 6, 11, -1, 1, 2]).bind
        (fun u => deleteNode u 10)).map inOrder =
      some [-1, 0, 1, 2, 5, 6, 9, 11] := by
  obtain ⟨t', e, -⟩ := deleteNode_inv t k ht
  have io := deleteNode_inOrder e ht.1
  have nd : (inOrder t).Nodup :=
    ((bst_iff_sorted t).1 ht.1).imp (fun h => ne_of_lt h)
  refine ⟨⟨t', e, io, ?_, ?_⟩, by rfl⟩
  · rw [io, nd.erase_eq_filter]
  · intro hk
    rw [io, List.erase_of_not_mem hk]

theorem deleteNode_removes_exactly_key_witness :
    Inv (node 20 (node 10 nil nil 1) (node 30 nil (node 40 nil nil 1) 2) 3) ∧
    ((∃ t', deleteNode (node 20 (node 10 nil nil 1) (node 30 nil (node 40 nil nil 1) 2) 3)
        20 = some t' ∧
      inOrder t' =
        (inOrder (node 20 (node 10 nil nil 1) (node 30 nil (node 40 nil nil 1) 2) 3)).erase
          20 ∧
      inOrder t' =
        (inOrder (node 20 (node 10 nil nil 1)
          (node 30 nil (node 40 nil nil 1) 2) 3)).filter (fun x => x != 20) ∧
      (20 ∉ inOrder (node 20 (node 10 nil nil 1) (node 30 nil (node 40 nil nil 1) 2) 3) →
        inOrder t' =
          inOrder (node 20 (node 10 nil nil 1) (node 30 nil (node 40 nil nil 1) 2) 3))) ∧
    ((insertAll nil [9, 5, 10, 0, 6, 11, -1, 1, 2]).bind
        (fun u => deleteNode u 10)).map inOrder =
      some [-1, 0, 1, 2, 5, 6, 9, 11]) :=
  ⟨by decide, deleteNode_removes_exactly_key _ 20 (by decide)⟩

/-- C5: rotations preserve the in-order key sequence.  For every tree `y`
whose left child is present `rightRotate y` returns a tree with the in-order
sequence of `y`, and for every tree `x` whose right child is present
`leftRotate x` returns a tree with the in-order sequence of `x`; nothing is
assumed about order, balance or cached heights. -/
theorem rotations_preserve_inOrder (ky kx : Int) (a b c : Node) (hy hx : Int) :
    (∃ t, rightRotate (node ky (node kx a b hx) c hy) = some t ∧
      inOrder t = inOrder (node ky (node kx a b hx) c hy)) ∧
    (∃ t, leftRotate (node kx a (node ky b c hy) hx) = some t ∧
      inOrder t = inOrder (node kx a (node ky b c hy) hx)) :=
  ⟨⟨_, rfl, rightRotate_inOrder rfl⟩, ⟨_, rfl, leftRotate_inOrder rfl⟩⟩

/-! ## Round trip, duplicates and absent keys -/

theorem inOrder_eq_nil {t : Node} (h : inOrder t = []) : t = nil := by
  cases t with
  | nil => rfl
  | node k l r h' => simp [inOrder] at h

theorem inOrder_nodup {t : Node} (hb : BST t) : (inOrder t).Nodup :=
  ((bst_iff_sorted t).1 hb).imp (fun h => ne_of_lt h)

theorem deleteAll_inv (t : Node) (ds : List Int) (ht : Inv t) :
    ∃ u, deleteAll t ds = some u ∧ Inv u ∧
      ∀ x, x ∈ inOrder u ↔ x ∈ inOrder t ∧ x ∉ ds := by
  induction ds generalizing t with
  | nil => exact ⟨t, rfl, ht, by simp⟩
  | cons k ds ih =>
    obtain ⟨t', e, ht'⟩ := deleteNode_inv t k ht
    obtain ⟨u, eu, hu, hm⟩ := ih t' ht'
    refine ⟨u, by simp [deleteAll, e, eu], hu, ?_⟩
    intro x
    rw [hm x, deleteNode_inOrder e ht.1, (inOrder_nodup ht.1).mem_erase_iff]
    simp only [List.mem_cons, not_or]
    tauto

theorem insert_present (u : Node) (k : Int) (hu : Inv u) (hk : k ∈ inOrder u) :
    insert u k = some u := by
  induction u with
  | nil => simp [inOrder] at hk
  | node k' l r h ihl ihr =>
    obtain ⟨⟨b1, b2, bl, br⟩, hh, hbal⟩ := hu
    obtain ⟨e, hl, hr⟩ := heightOK_node.1 hh
    obtain ⟨⟨d1, d2⟩, bal, bar⟩ := balanced_node.1 hbal
    simp only [inOrder, List.mem_append, List.mem_cons] at hk
    by_cases c1 : k < k'
    · have m : k ∈ inOrder l := by
        rcases hk with m | m | m
        · exact m
        · omega
        · have := b2 _ m; omega
      have el := ihl ⟨bl, hl, bal⟩ m
      obtain ⟨t, et, -, -, -, h4, -⟩ := insertRebalance_spec k' l r k hl bal hr bar
        (by omega) (by omega) (fun d => by omega) (fun d => by omega)
      rw [h4 d1 d2, ← e] at et
      simp [insert, c1, el, et]
    · by_cases c2 : k > k'
      · have m : k ∈ inOrder r := by
          rcases hk with m | m | m
          · have := b1 _ m; omega
          · omega
          · exact m
        have er := ihr ⟨br, hr, bar⟩ m
        obtain ⟨t, et, -, -, -, h4, -⟩ := insertRebalance_spec k' l r k hl bal hr bar
          (by omega) (by omega) (fun d => by omega) (fun d => by omega)
        rw [h4 d1 d2, ← e] at et
        simp [insert, c1, c2, er, et]
      · simp [insert, c1, c2]

theorem insert_mem {t t' : Node} {k : Int} (e : insert t k = some t') (hb : BST t) :
    k ∈ inOrder t' := by
  rcases insert_inOrder e hb with ⟨m, q⟩ | ⟨-, pre, post, -, q2, -, -⟩
  · rw [q]; exact m
  · rw [q2]; simp

theorem deleteNode_absent (t : Node) (k : Int) (hh : HeightOK t) (hbal : Balanced t)
    (hk : k ∉ inOrder t) : deleteNode t k = some t := by
  induction t with
  | nil => rfl
  | node k' l r h ihl ihr =>
    obtain ⟨e, hl, hr⟩ := heightOK_node.1 hh
    obtain ⟨⟨d1, d2⟩, bal, bar⟩ := balanced_node.1 hbal
    simp only [inOrder, List.mem_append, List.mem_cons, not_or] at hk
    obtain ⟨m1, m2, m3⟩ := hk
    obtain ⟨t, et, -, -, -, -, h4⟩ := deleteRebalance_spec k' l r hl bal hr bar
      (by omega) (by omega)
    rw [h4 d1 d2, ← e] at et
    by_cases c1 : k < k'
    · rw [deleteNode_lt l r h c1, ihl hl bal m1]
      exact et
    · have c2 : k > k' := by omega
      rw [deleteNode_gt l r h c2, ihr hr bar m3]
      exact et

theorem runOps_inv (t : Node) (ops : List Op) (ht : Inv t) :
    ∃ u, runOps t ops = some u ∧ Inv u := by
  induction ops generalizing t with
  | nil => exact ⟨t, rfl, ht⟩
  | cons o os ih =>
    cases o with
    | ins k =>
      obtain ⟨t', e, ht'⟩ := insert_inv t k ht
      obtain ⟨u, eu, hu⟩ := ih t' ht'
      exact ⟨u, by simp [runOps, applyOp, e, eu], hu⟩
    | del k =>
      obtain ⟨t', e, ht'⟩ := deleteNode_inv t k ht
      obtain ⟨u, eu, hu⟩ := ih t' ht'
      exact ⟨u, by simp [runOps, applyOp, e, eu], hu⟩

/-- C6: round trip to empty.  For every list `ks` of keys (duplicates
allowed) and every list `ds` that is a permutation of the distinct keys of
`ks`, inserting all of `ks` into the empty tree and then deleting every key
of `ds` in order yields the empty root. -/
theorem round_trip_empty (ks ds : List Int) (hp : ds.Perm ks.dedup) :
    ∃ t, insertAll nil ks = some t ∧ deleteAll t ds = some nil := by
  obtain ⟨t, e, ht, hm⟩ := insertAll_inv nil ks inv_nil
  obtain ⟨u, eu, -, hmu⟩ := deleteAll_inv t ds ht
  refine ⟨t, e, ?_⟩
  have : inOrder u = [] := by
    apply List.eq_nil_iff_forall_not_mem.2
    intro x hx
    obtain ⟨h1, h2⟩ := (hmu x).1 hx
    rcases (hm x).1 h1 with h | h
    · simp [inOrder] at h
    · exact h2 ((hp.mem_iff).2 (List.mem_dedup.2 h))
  rw [eu, inOrder_eq_nil this]

theorem round_trip_empty_witness :
    List.Perm [2, 3, 1] (List.dedup [3, 1, 3, 2]) ∧
    ∃ t, insertAll nil [3, 1, 3, 2] = some t ∧ deleteAll t [2, 3, 1] = some nil :=
  ⟨by decide, round_trip_empty [3, 1, 3, 2] [2, 3, 1] (by decide)⟩

/-- C7: a duplicate insert is a structural no-op.  For every tree `t`
satisfying the invariants and every key `k`, inserting `k` a second time
returns the tree of the first insert unchanged in shape, keys and cached
heights; and `insert u k` returns `u` itself for every tree `u` that satisfies
the invariants and already holds `k`. -/
theorem duplicate_insert_noop (t u : Node) (k : Int) (ht : Inv t) (hu : Inv u)
    (hk : k ∈ inOrder u) :
    (∃ t', insert t k = some t' ∧ insert t' k = some t') ∧ insert u k = some u := by
  obtain ⟨t', e, ht'⟩ := insert_inv t k ht
  exact ⟨⟨t', e, insert_present t' k ht' (insert_mem e ht.1)⟩, insert_present u k hu hk⟩

theorem duplicate_insert_noop_witness :
    Inv (node 20 (node 10 nil nil 1) (node 30 nil nil 1) 2) ∧
    Inv (node 20 (node 10 nil nil 1) (node 30 nil (node 40 nil nil 1) 2) 3) ∧
    (40 : Int) ∈ inOrder (node 20 (node 10 nil nil 1) (node 30 nil (node 40 nil nil 1) 2) 3) ∧
    ((∃ t', insert (node 20 (node 10 nil nil 1) (node 30 nil nil 1) 2) 40 = some t' ∧
        insert t' 40 = some t') ∧
      insert (node 20 (node 10 nil nil 1) (node 30 nil (node 40 nil nil 1) 2) 3) 40 =
        some (node 20 (node 10 nil nil 1) (node 30 nil (node 40 nil nil 1) 2) 3)) :=
  ⟨by decide, by decide, by decide,
    duplicate_insert_noop _ _ 40 (by decide) (by decide) (by decide)⟩

/-- C8: deleting an absent key changes nothing.  For every tree `t` satisfying
the invariants and every key `k` that is not a key of `t`, `deleteNode t k`
returns `t` itself (same shape, keys and cached heights); and deleting from
the empty tree returns the empty tree. -/
theorem delete_absent_noop (t : Node) (k : Int) (ht : Inv t) (hk : k ∉ inOrder t) :
    deleteNode t k = some t ∧ deleteNode nil k = some nil :=
  ⟨deleteNode_absent t k ht.2.1 ht.2.2 hk, rfl⟩

theorem delete_absent_noop_witness :
    Inv (node 20 (node 10 nil nil 1) (node 30 nil (node 40 nil nil 1) 2) 3) ∧
    (25 : Int) ∉ inOrder (node 20 (node 10 nil nil 1) (node 30 nil (node 40 nil nil 1) 2) 3) ∧
    (deleteNode (node 20 (node 10 nil nil 1) (node 30 nil (node 40 nil nil 1) 2) 3) 25 =
        some (node 20 (node 10 nil nil 1) (node 30 nil (node 40 nil nil 1) 2) 3) ∧
      deleteNode nil 25 = some nil) :=
  ⟨by decide, by decide, delete_absent_noop _ 25 (by decide) (by decide)⟩

/-! ## Small trees -/

theorem insert_leaf_gt {a b : Int} (h : a < b) :
    insert (node a nil nil 1) b = some (node a nil (node b nil nil 1) 2) := by
  have n : ¬ b < a := by omega
  rw [insert, if_neg n, if_pos h, insert]
  simp [newNode, insertRebalance, andKey, getBalance, tmax]

theorem insert_leaf_lt {a b : Int} (h : b < a) :
    insert (node a nil nil 1) b = some (node a (node b nil nil 1) nil 2) := by
  rw [insert, if_pos h, insert]
  simp [newNode, insertRebalance, andKey, getBalance, tmax]

theorem insert_nil (k : Int) : insert nil k = some (node k nil nil 1) := rfl

/-- C9: three-key rebalancing.  For every three keys `a < b < c` and each of
the six orders in which they can be inserted into the empty tree, the result
has root `b` with cached height `2`, left child the leaf `a` and right child
the leaf `c`, both of height `1`. -/
theorem three_key_rebalance (a b c : Int) (hab : a < b) (hbc : b < c) :
    insertAll nil [a, b, c] = some (node b (node a nil nil 1) (node c nil nil 1) 2) ∧
    insertAll nil [a, c, b] = some (node b (node a nil nil 1) (node c nil nil 1) 2) ∧
    insertAll nil [b, a, c] = some (node b (node a nil nil 1) (node c nil nil 1) 2) ∧
    insertAll nil [b, c, a] = some (node b (node a nil nil 1) (node c nil nil 1) 2) ∧
    insertAll nil [c, a, b] = some (node b (node a nil nil 1) (node c nil nil 1) 2) ∧
    insertAll nil [c, b, a] = some (node b (node a nil nil 1) (node c nil nil 1) 2) := by
  have hac : a < c := lt_trans hab hbc
  have n1 : ¬ b < a := by omega
  have n2 : ¬ c < b := by omega
  have n3 : ¬ c < a := by omega
  refine ⟨?_, ?_, ?_, ?_, ?_, ?_⟩
  · simp only [insertAll, insert_nil, Option.some_bind, insert_leaf_gt hab]
    rw [insert, if_neg n3, if_pos hac, insert_leaf_gt hbc]
    simp [insertRebalance, andKey, getBalance, tmax, leftRotate, hbc]
  · simp only [insertAll, insert_nil, Option.some_bind, insert_leaf_gt hac]
    rw [insert, if_neg n1, if_pos hab, insert_leaf_lt hbc]
    simp [insertRebalance, andKey, getBalance, tmax, leftRotate, rightRotate, hbc, n2]
  · simp only [insertAll, insert_nil, Option.some_bind, insert_leaf_lt hab]
    rw [insert, if_neg n2, if_pos hbc, insert_nil]
    simp [insertRebalance, andKey, getBalance, tmax]
  · simp only [insertAll, insert_nil, Option.some_bind, insert_leaf_gt hbc]
    rw [insert, if_pos hab, insert_nil]
    simp [insertRebalance, andKey, getBalance, tmax]
  · simp only [insertAll, insert_nil, Option.some_bind, insert_leaf_lt hac]
    rw [insert, if_pos hbc, insert_leaf_gt hab]
    simp [insertRebalance, andKey, getBalance, tmax, leftRotate, rightRotate, hab, n1]
  · simp only [insertAll, insert_nil, Option.some_bind, insert_leaf_lt hbc]
    rw [insert, if_pos hac, insert_leaf_lt hab]
    simp [insertRebalance, andKey, getBalance, tmax, rightRotate, hab]

theorem three_key_rebalance_witness :
    (10 : Int) < 20 ∧ (20 : Int) < 30 ∧
    (insertAll nil [10, 20, 30] =
        some (node 20 (node 10 nil nil 1) (node 30 nil nil 1) 2) ∧
      insertAll nil [10, 30, 20] =
        some (node 20 (node 10 nil nil 1) (node 30 nil nil 1) 2) ∧
      insertAll nil [20, 10, 30] =
        some (node 20 (node 10 nil nil 1) (node 30 nil nil 1) 2) ∧
      insertAll nil [20, 30, 10] =
        some (node 20 (node 10 nil nil 1) (node 30 nil nil 1) 2) ∧
      insertAll nil [30, 10, 20] =
        some (node 20 (node 10 nil nil 1) (node 30 nil nil 1) 2) ∧
      insertAll nil [30, 20, 10] =
        some (node 20 (node 10 nil nil 1) (node 30 nil nil 1) 2)) :=
  ⟨by decide, by decide, three_key_rebalance 10 20 30 (by decide) (by decide)⟩

/-- C10: the in-order enumeration is sorted and duplicate-free.  Every finite
sequence of `insert` and `deleteNode` calls, started on the empty tree, runs
to a tree whose in-order traversal lists the keys in strictly ascending order,
so no key appears twice. -/
theorem inOrder_sorted_nodup (ops : List Op) :
    ∃ t, runOps nil ops = some t ∧ (inOrder t).Sorted (fun a b : Int => a < b) ∧
      (inOrder t).Nodup := by
  obtain ⟨t, e, ht⟩ := runOps_inv nil ops inv_nil
  exact ⟨t, e, (bst_iff_sorted t).1 ht.1, inOrder_nodup ht.1⟩

/-! ## The instrumented runs compute the plain functions -/

theorem insertRebalanceT_fst (k : Int) (l r : Node) (key : Int) :
    (insertRebalanceT k l r key).map Prod.fst = insertRebalance k l r key := by
  unfold insertRebalanceT insertRebalance
  simp only
  split
  · rfl
  · simp [Option.map_map, Function.comp_def]
  · split
    · rfl
    · simp [Option.map_map, Function.comp_def]
    · split
      · rfl
      · simp [Option.map_map, Function.comp_def]
      · split
        · rfl
        · simp [Option.map_map, Function.comp_def]
        · rfl

theorem deleteRebalanceT_fst (k : Int) (l r : Node) :
    (deleteRebalanceT k l r).map Prod.fst = deleteRebalance k l r := by
  unfold deleteRebalanceT deleteRebalance
  simp only
  split_ifs <;> simp [Option.map_map, Function.comp_def]

theorem andKey_true {c : Bool} {n : Node} {p : Int → Bool}
    (h : andKey c n p = some true) : c = true := by
  cases c with
  | true => rfl
  | false => simp [andKey] at h

theorem insertRebalanceT_step {k : Int} {l r : Node} {key : Int} {t : Node}
    {s : Step} (e : insertRebalanceT k l r key = some (t, s)) :
    s.balance = height l - height r ∧
    (s.rot = RotCase.fallThrough →
      t = node k l r (1 + max (height l) (height r))) ∧
    (s.rot ≠ RotCase.fallThrough →
      height l - height r > 1 ∨ height l - height r < -1) := by
  unfold insertRebalanceT at e
  simp only [getBalance, height_node] at e
  split at e
  · simp at e
  · rename_i hc
    have c := of_decide_eq_true (andKey_true hc)
    obtain ⟨_, _, h⟩ := Option.map_eq_some'.1 e
    simp only [Prod.mk.injEq] at h
    rw [← h.2]
    exact ⟨rfl, fun x => by simp at x, fun _ => Or.inl c⟩
  · split at e
    · simp at e
    · rename_i hc
      have c := of_decide_eq_true (andKey_true hc)
      obtain ⟨_, _, h⟩ := Option.map_eq_some'.1 e
      simp only [Prod.mk.injEq] at h
      rw [← h.2]
      exact ⟨rfl, fun x => by simp at x, fun _ => Or.inr c⟩
    · split at e
      · simp at e
      · rename_i hc
        have c := of_decide_eq_true (andKey_true hc)
        obtain ⟨_, _, h⟩ := Option.map_eq_some'.1 e
        simp only [Prod.mk.injEq] at h
        rw [← h.2]
        exact ⟨rfl, fun x => by simp at x, fun _ => Or.inl c⟩
      · split at e
        · simp at e
        · rename_i hc
          have c := of_decide_eq_true (andKey_true hc)
          obtain ⟨_, _, h⟩ := Option.map_eq_some'.1 e
          simp only [Prod.mk.injEq] at h
          rw [← h.2]
          exact ⟨rfl, fun x => by simp at x, fun _ => Or.inr c⟩
        · simp only [Option.some.injEq, Prod.mk.injEq] at e
          rw [← e.2, ← e.1, tmax_eq]
          exact ⟨rfl, fun _ => rfl, fun x => by simp at x⟩

theorem deleteRebalanceT_step {k : Int} {l r : Node} {t : Node}
    {s : Step} (e : deleteRebalanceT k l r = some (t, s)) :
    s.balance = height l - height r ∧
    (s.rot = RotCase.fallThrough ↔
      ¬ (height l - height r > 1 ∨ height l - height r < -1)) := by
  unfold deleteRebalanceT at e
  simp only [getBalance, height_node] at e
  split_ifs at e with h1 h2 h3 h4
  · obtain ⟨_, _, h⟩ := Option.map_eq_some'.1 e
    simp only [Prod.mk.injEq] at h
    rw [← h.2]
    exact ⟨rfl, by simp; omega⟩
  · obtain ⟨_, _, h⟩ := Option.map_eq_some'.1 e
    simp only [Prod.mk.injEq] at h
    rw [← h.2]
    exact ⟨rfl, by simp; omega⟩
  · obtain ⟨_, _, h⟩ := Option.map_eq_some'.1 e
    simp only [Prod.mk.injEq] at h
    rw [← h.2]
    exact ⟨rfl, by simp; omega⟩
  · obtain ⟨_, _, h⟩ := Option.map_eq_some'.1 e
    simp only [Prod.mk.injEq] at h
    rw [← h.2]
    exact ⟨rfl, by simp; omega⟩
  · simp only [Option.some.injEq, Prod.mk.injEq] at e
    rw [← e.2]
    refine ⟨rfl, ?_⟩
    simp only [true_iff]
    omega

theorem insertRebalanceT_of_some {k : Int} {l r : Node} {key : Int} {t : Node}
    (e : insertRebalance k l r key = some t) :
    ∃ s, insertRebalanceT k l r key = some (t, s) := by
  have h := insertRebalanceT_fst k l r key
  rw [e] at h
  obtain ⟨p, hp, hq⟩ := Option.map_eq_some'.1 h
  exact ⟨p.2, by rw [hp, ← hq]⟩

theorem deleteRebalanceT_of_some {k : Int} {l r : Node} {t : Node}
    (e : deleteRebalance k l r = some t) :
    ∃ s, deleteRebalanceT k l r = some (t, s) := by
  have h := deleteRebalanceT_fst k l r
  rw [e] at h
  obtain ⟨p, hp, hq⟩ := Option.map_eq_some'.1 h
  exact ⟨p.2, by rw [hp, ← hq]⟩

theorem insertT_fst (t : Node) (key : Int) :
    (insertT t key).map Prod.fst = insert t key := by
  induction t with
  | nil => rfl
  | node k l r h ihl ihr =>
    rw [insertT, insert]
    split_ifs
    · rw [← ihl]
      cases insertT l key with
      | none => rfl
      | some p =>
        simp only [Option.some_bind, Option.map_some', Option.map_map]
        rw [← insertRebalanceT_fst]
        simp [Option.map_map, Function.comp_def]
    · rw [← ihr]
      cases insertT r key with
      | none => rfl
      | some p =>
        simp only [Option.some_bind, Option.map_some', Option.map_map]
        rw [← insertRebalanceT_fst]
        simp [Option.map_map, Function.comp_def]
    · rfl

theorem map_fst_cons {p : Node × List Step} (o : Option (Node × Step)) :
    (o.map fun q => (q.1, q.2 :: p.2)).map Prod.fst = o.map Prod.fst := by
  cases o <;> rfl

theorem map_fst_single (o : Option (Node × Step)) :
    (o.map fun q => (q.1, [q.2])).map Prod.fst = o.map Prod.fst := by
  cases o <;> rfl

theorem deleteNodeT_fst (t : Node) (key : Int) :
    (deleteNodeT t key).map Prod.fst = deleteNode t key := by
  induction t generalizing key with
  | nil => rfl
  | node k l r h ihl ihr =>
    rw [deleteNodeT.eq_def, deleteNode.eq_def]
    simp only
    split_ifs
    · rw [← ihl]
      cases deleteNodeT l key with
      | none => rfl
      | some p =>
        simp only [Option.some_bind, Option.map_some']
        rw [map_fst_cons, deleteRebalanceT_fst]
    · rw [← ihr]
      cases deleteNodeT r key with
      | none => rfl
      | some p =>
        simp only [Option.some_bind, Option.map_some']
        rw [map_fst_cons, deleteRebalanceT_fst]
    · cases l with
      | nil =>
        cases r with
        | nil => rfl
        | node rk rl rr rh =>
          simp only
          rw [map_fst_single, deleteRebalanceT_fst]
      | node lk ll lr lh =>
        cases r with
        | nil =>
          simp only
          rw [map_fst_single, deleteRebalanceT_fst]
        | node rk rl rr rh =>
          simp only
          cases minValueNode (node rk rl rr rh) with
          | none => rfl
          | some temp =>
            simp only [Option.some_bind]
            cases keyOf temp with
            | none => rfl
            | some tk =>
              simp only [Option.some_bind]
              rw [← ihr]
              cases deleteNodeT (node rk rl rr rh) tk with
              | none => rfl
              | some p =>
                simp only [Option.some_bind, Option.map_some']
                rw [map_fst_cons, deleteRebalanceT_fst]

theorem insertT_of_some {t t' : Node} {key : Int} (e : insert t key = some t') :
    ∃ log, insertT t key = some (t', log) := by
  have h := insertT_fst t key
  rw [e] at h
  obtain ⟨p, hp, hq⟩ := Option.map_eq_some'.1 h
  exact ⟨p.2, by rw [hp, ← hq]⟩

theorem deleteNodeT_of_some {t t' : Node} {key : Int} (e : deleteNode t key = some t') :
    ∃ log, deleteNodeT t key = some (t', log) := by
  have h := deleteNodeT_fst t key
  rw [e] at h
  obtain ⟨p, hp, hq⟩ := Option.map_eq_some'.1 h
  exact ⟨p.2, by rw [hp, ← hq]⟩

/-! ## Steps of an insertion -/

theorem insertT_spec (t : Node) (key : Int) (ht : HeightOK t) (bt : Balanced t) :
    ∃ t' log, insertT t key = some (t', log) ∧ insert t key = some t' ∧
      (height t' = height t ∨ height t' = height t + 1) ∧
      (∀ s ∈ log, -2 ≤ s.balance ∧ s.balance ≤ 2 ∧
        (s.balance = 2 ∨ s.balance = -2 → s.rot ≠ RotCase.fallThrough) ∧
        (s.rot = RotCase.fallThrough → -1 ≤ s.balance ∧ s.balance ≤ 1)) ∧
      log.countP Step.rotated ≤ 1 ∧
      (log.countP Step.rotated = 1 → height t' = height t) := by
  induction t with
  | nil =>
    refine ⟨newNode key, [], rfl, rfl, Or.inr rfl, ?_, ?_, ?_⟩
    · intro s hs; simp at hs
    · simp
    · simp
  | node k l r h ihl ihr =>
    obtain ⟨e, hl, hr⟩ := heightOK_node.1 ht
    obtain ⟨⟨b1, b2⟩, bl, br⟩ := balanced_node.1 bt
    by_cases c1 : key < k
    · obtain ⟨l', logl, eT, el, -, hsteps, hcnt, hsame⟩ := ihl hl bl
      obtain ⟨l'', el', hl', bl', hh⟩ := insert_avl l key hl bl
      rw [el] at el'
      obtain rfl := Option.some.inj el'
      obtain ⟨t, et, -, -, -, h4, h5⟩ := insertRebalance_spec k l' r key hl' bl' hr br
        (by omega) (by omega)
        (fun d => by
          rcases hh with hh | ⟨-, g⟩
          · omega
          · exact g)
        (fun d => by omega)
      obtain ⟨s, es⟩ := insertRebalanceT_of_some et
      obtain ⟨sb, sf, sr⟩ := insertRebalanceT_step es
      have eI : insert (node k l r h) key = some t := by simp [insert, c1, el, et]
      have eIT : insertT (node k l r h) key = some (t, s :: logl) := by
        simp [insertT, c1, eT, es]
      have hf : (s.balance = 2 ∨ s.balance = -2) → s.rot ≠ RotCase.fallThrough := by
        intro hb hrot
        have h1 := sf hrot
        have h2 := h5 (by omega)
        rw [h1] at h2
        simp only [height_node] at h2
        omega
      refine ⟨t, s :: logl, eIT, eI, ?_, ?_, ?_, ?_⟩
      · obtain ⟨t2, e2, -, -, g⟩ := insert_avl (node k l r h) key ht bt
        rw [eI] at e2
        obtain rfl := Option.some.inj e2
        rcases g with g | ⟨g, -⟩
        · exact Or.inl g
        · exact Or.inr g
      · intro x hx
        rcases List.mem_cons.1 hx with rfl | hx
        · refine ⟨by omega, by omega, hf, ?_⟩
          intro hrot
          by_contra hc
          exact hf (by omega) hrot
        · exact hsteps x hx
      · by_cases hrot : s.rot = RotCase.fallThrough
        · rw [List.countP_cons_of_neg _ _ (by simp [Step.rotated, hrot])]
          exact hcnt
        · have hgrow : height l' ≠ height l := by
            rcases sr hrot with d | d <;> omega
          have : List.countP Step.rotated logl = 0 := by
            by_contra hc
            exact hgrow (hsame (by omega))
          rw [List.countP_cons_of_pos _ _ (by simp [Step.rotated, hrot]), this]
      · intro hc
        simp only [height_node]
        by_cases hrot : s.rot = RotCase.fallThrough
        · rw [List.countP_cons_of_neg _ _ (by simp [Step.rotated, hrot])] at hc
          have := hsame hc
          rw [sf hrot, this]
          simp only [height_node]
          omega
        · have := h5 (by rcases sr hrot with d | d <;> omega)
          rcases sr hrot with d | d <;> omega
    · by_cases c2 : key > k
      · obtain ⟨r', logr, eT, er, -, hsteps, hcnt, hsame⟩ := ihr hr br
        obtain ⟨r'', er', hr', br', hh⟩ := insert_avl r key hr br
        rw [er] at er'
        obtain rfl := Option.some.inj er'
        obtain ⟨t, et, -, -, -, h4, h5⟩ := insertRebalance_spec k l r' key hl bl hr' br'
          (by omega) (by omega)
          (fun d => by omega)
          (fun d => by
            rcases hh with hh | ⟨-, g⟩
            · omega
            · exact g)
        obtain ⟨s, es⟩ := insertRebalanceT_of_some et
        obtain ⟨sb, sf, sr⟩ := insertRebalanceT_step es
        have eI : insert (node k l r h) key = some t := by simp [insert, c1, c2, er, et]
        have eIT : insertT (node k l r h) key = some (t, s :: logr) := by
          simp [insertT, c1, c2, eT, es]
        have hf : (s.balance = 2 ∨ s.balance = -2) → s.rot ≠ RotCase.fallThrough := by
          intro hb hrot
          have h1 := sf hrot
          have h2 := h5 (by omega)
          rw [h1] at h2
          simp only [height_node] at h2
          omega
        refine ⟨t, s :: logr, eIT, eI, ?_, ?_, ?_, ?_⟩
        · obtain ⟨t2, e2, -, -, g⟩ := insert_avl (node k l r h) key ht bt
          rw [eI] at e2
          obtain rfl := Option.some.inj e2
          rcases g with g | ⟨g, -⟩
          · exact Or.inl g
          · exact Or.inr g
        · intro x hx
          rcases List.mem_cons.1 hx with rfl | hx
          · refine ⟨by omega, by omega, hf, ?_⟩
            intro hrot
            by_contra hc
            exact hf (by omega) hrot
          · exact hsteps x hx
        · by_cases hrot : s.rot = RotCase.fallThrough
          · rw [List.countP_cons_of_neg _ _ (by simp [Step.rotated, hrot])]
            exact hcnt
          · have hgrow : height r' ≠ height r := by
              rcases sr hrot with d | d <;> omega
            have : List.countP Step.rotated logr = 0 := by
              by_contra hc
              exact hgrow (hsame (by omega))
            rw [List.countP_cons_of_pos _ _ (by simp [Step.rotated, hrot]), this]
        · intro hc
          simp only [height_node]
          by_cases hrot : s.rot = RotCase.fallThrough
          · rw [List.countP_cons_of_neg _ _ (by simp [Step.rotated, hrot])] at hc
            have := hsame hc
            rw [sf hrot, this]
            simp only [height_node]
            omega
          · have := h5 (by rcases sr hrot with d | d <;> omega)
            rcases sr hrot with d | d <;> omega
      · refine ⟨node k l r h, [], by simp [insertT, c1, c2], by simp [insert, c1, c2],
          Or.inl rfl, ?_, by simp, by simp⟩
        intro s hs; simp at hs

/-! ## Steps of a deletion -/

theorem deleteNodeT_lt {k key : Int} (l r : Node) (h : Int) (c : key < k) :
    deleteNodeT (node k l r h) key =
      (deleteNodeT l key).bind fun p =>
        (deleteRebalanceT k p.1 r).map fun q => (q.1, q.2 :: p.2) := by
  rw [deleteNodeT.eq_def]
  simp only [if_pos c]

theorem deleteNodeT_gt {k key : Int} (l r : Node) (h : Int) (c : key > k) :
    deleteNodeT (node k l r h) key =
      (deleteNodeT r key).bind fun p =>
        (deleteRebalanceT k l p.1).map fun q => (q.1, q.2 :: p.2) := by
  rw [deleteNodeT.eq_def]
  simp only [if_neg (not_lt.2 (le_of_lt c)), if_pos c]

theorem deleteNodeT_eq (k : Int) (l r : Node) (h : Int) :
    deleteNodeT (node k l r h) k =
      match l, r with
      | nil, nil => some (nil, [])
      | nil, node rk rl rr _ => (deleteRebalanceT rk rl rr).map fun q => (q.1, [q.2])
      | node lk ll lr _, nil => (deleteRebalanceT lk ll lr).map fun q => (q.1, [q.2])
      | node _ _ _ _, node _ _ _ _ =>
        (minValueNode r).bind fun temp =>
        (keyOf temp).bind fun tk =>
        (deleteNodeT r tk).bind fun p =>
          (deleteRebalanceT tk l p.1).map fun q => (q.1, q.2 :: p.2) := by
  rw [deleteNodeT.eq_def]
  simp only [lt_irrefl, gt_iff_lt, if_false]

theorem deleteNodeT_spec (t : Node) (key : Int) (ht : HeightOK t) (bt : Balanced t) :
    ∃ t' log, deleteNodeT t key = some (t', log) ∧ deleteNode t key = some t' ∧
      HeightOK t' ∧ Balanced t' ∧
      (height t' = height t ∨ height t' + 1 = height t) ∧
      ∀ s ∈ log, -2 ≤ s.balance ∧ s.balance ≤ 2 ∧
        (s.rot = RotCase.fallThrough ↔ (-1 ≤ s.balance ∧ s.balance ≤ 1)) := by
  induction t generalizing key with
  | nil =>
    refine ⟨nil, [], rfl, rfl, trivial, trivial, Or.inl rfl, ?_⟩
    intro s hs; simp at hs
  | node k l r h ihl ihr =>
    obtain ⟨t', e', h1, h2, hh⟩ := deleteNode_avl (node k l r h) key ht bt
    obtain ⟨log, eT⟩ := deleteNodeT_of_some e'
    refine ⟨t', log, eT, e', h1, h2, hh, ?_⟩
    obtain ⟨e, hl, hr⟩ := heightOK_node.1 ht
    obtain ⟨⟨b1, b2⟩, bl, br⟩ := balanced_node.1 bt
    have nl := height_nonneg hl
    have nr := height_nonneg hr
    by_cases c1 : key < k
    · obtain ⟨l', logl, elT, el, hl', bl', hhl, hsteps⟩ := ihl key hl bl
      rw [deleteNodeT_lt l r h c1, elT] at eT
      simp only [Option.some_bind] at eT
      obtain ⟨q, eq, hq⟩ := Option.map_eq_some'.1 eT
      obtain ⟨sb, sf⟩ := deleteRebalanceT_step (show deleteRebalanceT k l' r = some (q.1, q.2)
        from eq)
      simp only [Prod.mk.injEq] at hq
      rw [← hq.2]
      intro s hs
      rcases List.mem_cons.1 hs with rfl | hs
      · rw [sf, sb]; omega
      · exact hsteps s hs
    · by_cases c2 : key > k
      · obtain ⟨r', logr, erT, er, hr', br', hhr, hsteps⟩ := ihr key hr br
        rw [deleteNodeT_gt l r h c2, erT] at eT
        simp only [Option.some_bind] at eT
        obtain ⟨q, eq, hq⟩ := Option.map_eq_some'.1 eT
        obtain ⟨sb, sf⟩ := deleteRebalanceT_step
          (show deleteRebalanceT k l r' = some (q.1, q.2) from eq)
        simp only [Prod.mk.injEq] at hq
        rw [← hq.2]
        intro s hs
        rcases List.mem_cons.1 hs with rfl | hs
        · rw [sf, sb]; omega
        · exact hsteps s hs
      · have hk : key = k := by omega
        subst hk
        rw [deleteNodeT_eq] at eT
        cases l with
        | nil =>
          cases r with
          | nil =>
            simp only [Option.some.injEq, Prod.mk.injEq] at eT
            rw [← eT.2]
            intro s hs; simp at hs
          | node rk rl rr rh =>
            simp only at eT
            obtain ⟨e2, hrl, hrr⟩ := heightOK_node.1 hr
            obtain ⟨⟨d1, d2⟩, -, -⟩ := balanced_node.1 br
            obtain ⟨q, eq, hq⟩ := Option.map_eq_some'.1 eT
            obtain ⟨sb, sf⟩ := deleteRebalanceT_step
              (show deleteRebalanceT rk rl rr = some (q.1, q.2) from eq)
            simp only [Prod.mk.injEq] at hq
            rw [← hq.2]
            intro s hs
            rcases List.mem_cons.1 hs with rfl | hs
            · rw [sf, sb]; omega
            · simp at hs
        | node lk ll lr lh =>
          cases r with
          | nil =>
            simp only at eT
            obtain ⟨e2, hll, hlr⟩ := heightOK_node.1 hl
            obtain ⟨⟨d1, d2⟩, -, -⟩ := balanced_node.1 bl
            obtain ⟨q, eq, hq⟩ := Option.map_eq_some'.1 eT
            obtain ⟨sb, sf⟩ := deleteRebalanceT_step
              (show deleteRebalanceT lk ll lr = some (q.1, q.2) from eq)
            simp only [Prod.mk.injEq] at hq
            rw [← hq.2]
            intro s hs
            rcases List.mem_cons.1 hs with rfl | hs
            · rw [sf, sb]; omega
            · simp at hs
          | node rk rl rr rh =>
            simp only at eT
            obtain ⟨mk, mr, mh, rest, em, -⟩ := minValueNode_spec rk rl rr rh
            obtain ⟨r', logr, erT, er, hr', br', hhr, hsteps⟩ := ihr mk hr br
            simp only [em, keyOf, Option.some_bind, erT] at eT
            obtain ⟨q, eq, hq⟩ := Option.map_eq_some'.1 eT
            obtain ⟨sb, sf⟩ := deleteRebalanceT_step
              (show deleteRebalanceT mk (node lk ll lr lh) r' = some (q.1, q.2) from eq)
            simp only [Prod.mk.injEq] at hq
            rw [← hq.2]
            simp only [height_node] at *
            intro s hs
            rcases List.mem_cons.1 hs with rfl | hs
            · rw [sf, sb]; omega
            · exact hsteps s hs

/-! ## Height and size -/

theorem fib_le_size (t : Node) (n : Nat) (ht : HeightOK t) (bt : Balanced t)
    (hn : height t = (n : Int)) : Nat.fib (n + 2) ≤ size t + 1 := by
  induction t generalizing n with
  | nil =>
    simp only [height_nil] at hn
    have : n = 0 := by omega
    subst this
    simp [size]
  | node k l r h ihl ihr =>
    obtain ⟨e, hl, hr⟩ := heightOK_node.1 ht
    obtain ⟨⟨b1, b2⟩, bl, br⟩ := balanced_node.1 bt
    have nl := height_nonneg hl
    have nr := height_nonneg hr
    obtain ⟨a, ha⟩ := Int.eq_ofNat_of_zero_le nl
    obtain ⟨b, hb⟩ := Int.eq_ofNat_of_zero_le nr
    have ia := ihl a hl bl ha
    have ib := ihr b hr br hb
    simp only [height_node] at hn
    simp only [size]
    by_cases c : b ≤ a
    · have en : n = a + 1 := by omega
      subst en
      have m : Nat.fib (a + 1) ≤ Nat.fib (b + 2) := Nat.fib_mono (by omega)
      have f : Nat.fib (a + 1 + 2) = Nat.fib (a + 1) + Nat.fib (a + 2) := Nat.fib_add_two
      omega
    · have en : n = b + 1 := by omega
      subst en
      have m : Nat.fib (b + 1) ≤ Nat.fib (a + 2) := Nat.fib_mono (by omega)
      have f : Nat.fib (b + 1 + 2) = Nat.fib (b + 1) + Nat.fib (b + 2) := Nat.fib_add_two
      omega

theorem fib_height_le_size (t : Node) (ht : HeightOK t) (bt : Balanced t) :
    (Nat.fib ((height t).toNat + 2) : Int) - 1 ≤ (size t : Int) := by
  have h := fib_le_size t (height t).toNat ht bt
    (Int.toNat_of_nonneg (height_nonneg ht)).symm
  omega

/-! ## Key-based and balance-based dispatch -/

theorem rebalance_agree (k : Int) (l r : Node) (key : Int)
    (hl : HeightOK l) (hr : HeightOK r)
    (gl : height l - height r > 1 → TallSide key l)
    (gr : height l - height r < -1 → TallSide key r) :
    insertRebalance k l r key = deleteRebalance k l r := by
  have nl := height_nonneg hl
  have nr := height_nonneg hr
  by_cases h1 : height l - height r > 1
  · cases l with
    | nil => simp at h1; omega
    | node lk ll lr lh =>
      obtain ⟨e, hll, hlr⟩ := heightOK_node.1 hl
      have nll := height_nonneg hll
      have nlr := height_nonneg hlr
      simp only [height_node] at h1 nl
      rcases gl h1 with ⟨rfl, rfl⟩ | ⟨hk, hh⟩ | ⟨hk, hh⟩
      · simp at e; omega
      · have e1 : insertRebalance k (node lk ll lr lh) r key = some
            (node lk ll (node k lr r (1 + max (height lr) (height r)))
              (1 + max (height ll) (1 + max (height lr) (height r)))) := by
          simp [insertRebalance, andKey, getBalance, h1, hk, rightRotate, tmax_eq]
        have e2 : deleteRebalance k (node lk ll lr lh) r = some
            (node lk ll (node k lr r (1 + max (height lr) (height r)))
              (1 + max (height ll) (1 + max (height lr) (height r)))) := by
          simp only [deleteRebalance, getBalance, height_node]
          rw [if_pos (by omega)]
          simp [rightRotate, tmax_eq]
        rw [e1, e2]
      · cases lr with
        | nil => simp at hh; omega
        | node mk ml mr mh =>
          simp only [height_node] at hh
          have e1 : insertRebalance k (node lk ll (node mk ml mr mh) lh) r key = some
              (node mk (node lk ll ml (1 + max (height ll) (height ml)))
                (node k mr r (1 + max (height mr) (height r)))
                (1 + max (1 + max (height ll) (height ml))
                  (1 + max (height mr) (height r)))) := by
            have hk' : ¬ key < lk := by omega
            have h3 : ¬ lh - height r < -1 := by omega
            simp [insertRebalance, andKey, getBalance, h1, hk, hk', h3, rightRotate,
              leftRotate, tmax_eq]
          have e2 : deleteRebalance k (node lk ll (node mk ml mr mh) lh) r = some
              (node mk (node lk ll ml (1 + max (height ll) (height ml)))
                (node k mr r (1 + max (height mr) (height r)))
                (1 + max (1 + max (height ll) (height ml))
                  (1 + max (height mr) (height r)))) := by
            simp only [deleteRebalance, getBalance, height_node]
            rw [if_neg (by omega), if_pos (by omega)]
            simp [rightRotate, leftRotate, tmax_eq]
          rw [e1, e2]
  · by_cases h3 : height l - height r < -1
    · cases r with
      | nil => simp at h3; omega
      | node rk rl rr rh =>
        obtain ⟨e, hrl, hrr⟩ := heightOK_node.1 hr
        have nrl := height_nonneg hrl
        have nrr := height_nonneg hrr
        simp only [height_node] at h1 h3 nr
        rcases gr h3 with ⟨rfl, rfl⟩ | ⟨hk, hh⟩ | ⟨hk, hh⟩
        · simp at e; omega
        · cases rl with
          | nil => simp at hh; omega
          | node mk ml mr mh =>
            simp only [height_node] at hh
            have e1 : insertRebalance k l (node rk (node mk ml mr mh) rr rh) key = some
                (node mk (node k l ml (1 + max (height l) (height ml)))
                  (node rk mr rr (1 + max (height mr) (height rr)))
                  (1 + max (1 + max (height l) (height ml))
                    (1 + max (height mr) (height rr)))) := by
              have hk' : ¬ key > rk := by omega
              simp [insertRebalance, andKey, getBalance, h1, h3, hk, hk', rightRotate,
                leftRotate, tmax_eq]
            have e2 : deleteRebalance k l (node rk (node mk ml mr mh) rr rh) = some
                (node mk (node k l ml (1 + max (height l) (height ml)))
                  (node rk mr rr (1 + max (height mr) (height rr)))
                  (1 + max (1 + max (height l) (height ml))
                    (1 + max (height mr) (height rr)))) := by
              simp only [deleteRebalance, getBalance, height_node]
              rw [if_neg (by omega), if_neg (by omega), if_neg (by omega),
                if_pos (by omega)]
              simp [rightRotate, leftRotate, tmax_eq]
            rw [e1, e2]
        · have e1 : insertRebalance k l (node rk rl rr rh) key = some
              (node rk (node k l rl (1 + max (height l) (height rl))) rr
                (1 + max (1 + max (height l) (height rl)) (height rr))) := by
            simp [insertRebalance, andKey, getBalance, h1, h3, hk, leftRotate, tmax_eq]
          have e2 : deleteRebalance k l (node rk rl rr rh) = some
              (node rk (node k l rl (1 + max (height l) (height rl))) rr
                (1 + max (1 + max (height l) (height rl)) (height rr))) := by
            simp only [deleteRebalance, getBalance, height_node]
            rw [if_neg (by omega), if_neg (by omega), if_pos (by omega)]
            simp [leftRotate, tmax_eq]
          rw [e1, e2]
    · have e1 : insertRebalance k l r key =
          some (node k l r (1 + max (height l) (height r))) := by
        simp [insertRebalance, andKey, getBalance, h1, h3, tmax_eq]
      have e2 : deleteRebalance k l r =
          some (node k l r (1 + max (height l) (height r))) := by
        simp only [deleteRebalance, getBalance, height_node]
        rw [if_neg (by omega), if_neg (by omega), if_neg (by omega),
          if_neg (by omega)]
        simp [tmax_eq]
      rw [e1, e2]

theorem insertByBalance_eq (t : Node) (key : Int) (ht : HeightOK t) (bt : Balanced t) :
    insertByBalance t key = insert t key := by
  induction t with
  | nil => rfl
  | node k l r h ihl ihr =>
    obtain ⟨e, hl, hr⟩ := heightOK_node.1 ht
    obtain ⟨⟨b1, b2⟩, bl, br⟩ := balanced_node.1 bt
    rw [insertByBalance, insert]
    split_ifs with c1 c2
    · obtain ⟨l', el, hl', bl', hh⟩ := insert_avl l key hl bl
      rw [ihl hl bl, el]
      simp only [Option.some_bind]
      exact (rebalance_agree k l' r key hl' hr
        (fun d => by
          rcases hh with hh | ⟨-, g⟩
          · omega
          · exact g)
        (fun d => by omega)).symm
    · obtain ⟨r', er, hr', br', hh⟩ := insert_avl r key hr br
      rw [ihr hr br, er]
      simp only [Option.some_bind]
      exact (rebalance_agree k l r' key hl hr'
        (fun d => by omega)
        (fun d => by
          rcases hh with hh | ⟨-, g⟩
          · omega
          · exact g)).symm
    · rfl

/-- C11: height bound.  Every tree with correct cached heights and AVL
balance, of height `h` and with `n` nodes, satisfies `n ≥ Fib(h + 2) - 1`,
where `Fib(1) = Fib(2) = 1`; so does every tree that a sequence of `insert`
and `deleteNode` calls builds from the empty tree. -/
theorem height_bound (t : Node) (ops : List Op) (ht : HeightOK t) (bt : Balanced t) :
    (Nat.fib ((height t).toNat + 2) : Int) - 1 ≤ (size t : Int) ∧
    Nat.fib 1 = 1 ∧ Nat.fib 2 = 1 ∧
    ∃ u, runOps nil ops = some u ∧
      (Nat.fib ((height u).toNat + 2) : Int) - 1 ≤ (size u : Int) := by
  refine ⟨fib_height_le_size t ht bt, rfl, rfl, ?_⟩
  obtain ⟨u, e, hu⟩ := runOps_inv nil ops inv_nil
  exact ⟨u, e, fib_height_le_size u hu.2.1 hu.2.2⟩

theorem height_bound_witness :
    HeightOK minimalTree5 ∧ Balanced minimalTree5 ∧
    ((Nat.fib ((height minimalTree5).toNat + 2) : Int) - 1 ≤ (size minimalTree5 : Int) ∧
    Nat.fib 1 = 1 ∧ Nat.fib 2 = 1 ∧
    ∃ u, runOps nil [Op.ins 3, Op.ins 1, Op.del 3] = some u ∧
      (Nat.fib ((height u).toNat + 2) : Int) - 1 ≤ (size u : Int)) :=
  ⟨by decide, by decide,
    height_bound minimalTree5 [Op.ins 3, Op.ins 1, Op.del 3] (by decide) (by decide)⟩

/-- C12: rotation and minimum-lookup preconditions are never violated.  In
this model `rightRotate`, `leftRotate`, `minValueNode` and the key reads of
the dispatch of `insert` are partial: they give `none` when the child or node
they dereference is absent, and `none` propagates to the result of `insert`
and `deleteNode`.  For every tree satisfying the invariants and every key
both operations return a tree, so no failing branch is reached. -/
theorem preconditions_never_violated (t : Node) (k : Int) (ht : Inv t) :
    (∃ t', insert t k = some t') ∧ (∃ t', deleteNode t k = some t') := by
  obtain ⟨a, ea, -⟩ := insert_inv t k ht
  obtain ⟨b, eb, -⟩ := deleteNode_inv t k ht
  exact ⟨⟨a, ea⟩, ⟨b, eb⟩⟩

theorem preconditions_never_violated_witness :
    Inv minimalTree5 ∧
    ((∃ t', insert minimalTree5 0 = some t') ∧
      (∃ t', deleteNode minimalTree5 0 = some t')) :=
  ⟨by decide, preconditions_never_violated minimalTree5 0 (by decide)⟩

/-- C13: `insert` changes the height by at most one.  For every tree
satisfying the invariants and every key, the height of the result is the old
height or one more; at every node on the insertion path the balance factor
computed after the recursive call is one of `-2, -1, 0, 1, 2`; when it is `2`
or `-2` one of the four rotation cases is taken, and the final `return` is
only reached with a balance factor among `-1, 0, 1`. -/
theorem insert_height_step (t : Node) (k : Int) (ht : Inv t) :
    ∃ t' log, insertT t k = some (t', log) ∧ insert t k = some t' ∧
      (height t' = height t ∨ height t' = height t + 1) ∧
      ∀ s ∈ log,
        (s.balance = -2 ∨ s.balance = -1 ∨ s.balance = 0 ∨ s.balance = 1 ∨
          s.balance = 2) ∧
        (s.balance = 2 ∨ s.balance = -2 → s.rot ≠ RotCase.fallThrough) ∧
        (s.rot = RotCase.fallThrough →
          s.balance = -1 ∨ s.balance = 0 ∨ s.balance = 1) := by
  obtain ⟨t', log, e1, e2, hh, hs, -, -⟩ := insertT_spec t k ht.2.1 ht.2.2
  refine ⟨t', log, e1, e2, hh, ?_⟩
  intro s m
  obtain ⟨a, b, c, d⟩ := hs s m
  refine ⟨by omega, c, fun x => ?_⟩
  have := d x
  omega

theorem insert_height_step_witness :
    Inv minimalTree5 ∧
    ∃ t' log, insertT minimalTree5 0 = some (t', log) ∧
      insert minimalTree5 0 = some t' ∧
      (height t' = height minimalTree5 ∨ height t' = height minimalTree5 + 1) ∧
      ∀ s ∈ log,
        (s.balance = -2 ∨ s.balance = -1 ∨ s.balance = 0 ∨ s.balance = 1 ∨
          s.balance = 2) ∧
        (s.balance = 2 ∨ s.balance = -2 → s.rot ≠ RotCase.fallThrough) ∧
        (s.rot = RotCase.fallThrough →
          s.balance = -1 ∨ s.balance = 0 ∨ s.balance = 1) :=
  ⟨by decide, insert_height_step minimalTree5 0 (by decide)⟩

/-- C14: a single `insert` rebalances at most once.  For every tree
satisfying the invariants and every key, among the nodes on the insertion
path at most one takes one of the four rotation cases; all the others reach
the final `return` without rotating. -/
theorem insert_rotates_at_most_once (t : Node) (k : Int) (ht : Inv t) :
    ∃ t' log, insertT t k = some (t', log) ∧ insert t k = some t' ∧
      log.countP Step.rotated ≤ 1 := by
  obtain ⟨t', log, e1, e2, -, -, hc, -⟩ := insertT_spec t k ht.2.1 ht.2.2
  exact ⟨t', log, e1, e2, hc⟩

theorem insert_rotates_at_most_once_witness :
    Inv minimalTree5 ∧
    ∃ t' log, insertT minimalTree5 0 = some (t', log) ∧
      insert minimalTree5 0 = some t' ∧ log.countP Step.rotated ≤ 1 :=
  ⟨by decide, insert_rotates_at_most_once minimalTree5 0 (by decide)⟩

/-- C15: a single delete can rebalance at several ancestors.  The AVL tree of
height 5 with 12 nodes satisfies the invariants and holds the key 12, a leaf
of its shallower side; during `deleteNode` of that key, rotation cases are
taken at two nodes of the path back to the root. -/
theorem delete_rotates_at_two_nodes :
    ∃ t k, Inv t ∧ k ∈ inOrder t ∧ size t = 12 ∧ height t = 5 ∧
      ∃ t' log, deleteNodeT t k = some (t', log) ∧ deleteNode t k = some t' ∧
        2 ≤ log.countP Step.rotated :=
  ⟨minimalTree5, 12, by decide, by decide, rfl, rfl, _, _, rfl, rfl, by decide⟩

/-- C16: rotations restore the height cache.  For every tree `y` with present
left child `x`, if the three subtrees `x.left`, `x.right` and `y.right` have
correct cached heights at all their nodes, then every node of `rightRotate y`
has a correct cached height, whatever the cached heights of `y` and `x` were;
the same holds for `leftRotate`.  The order of the two updates matters: with
the promoted node recomputed first, the rotation of a tree with correct
heights returns a tree with a wrong cached height. -/
theorem rotations_restore_heights (ky kx : Int) (a b c : Node) (hy hx : Int)
    (ha : HeightOK a) (hb : HeightOK b) (hc : HeightOK c) :
    (∃ t, rightRotate (node ky (node kx a b hx) c hy) = some t ∧ HeightOK t) ∧
    (∃ t, leftRotate (node kx a (node ky b c hy) hx) = some t ∧ HeightOK t) ∧
    (HeightOK (node 2 (node 1 nil nil 1) nil 2) ∧
      ∃ t, rightRotateSwapped (node 2 (node 1 nil nil 1) nil 2) = some t ∧
        ¬ HeightOK t) ∧
    (HeightOK (node 1 nil (node 2 nil nil 1) 2) ∧
      ∃ t, leftRotateSwapped (node 1 nil (node 2 nil nil 1) 2) = some t ∧
        ¬ HeightOK t) := by
  refine ⟨⟨_, rfl, ?_⟩, ⟨_, rfl, ?_⟩, ⟨by decide, _, rfl, by decide⟩,
    ⟨by decide, _, rfl, by decide⟩⟩
  · simp only [heightOK_node, height_node, tmax_eq]
    exact ⟨trivial, ha, trivial, hb, hc⟩
  · simp only [heightOK_node, height_node, tmax_eq]
    exact ⟨trivial, ⟨trivial, ha, hb⟩, hc⟩

theorem rotations_restore_heights_witness :
    HeightOK (node 1 nil nil 1) ∧ HeightOK nil ∧ HeightOK (node 9 nil nil 1) ∧
    ((∃ t, rightRotate (node 5 (node 3 (node 1 nil nil 1) nil 70) (node 9 nil nil 1) (-4)) =
        some t ∧ HeightOK t) ∧
    (∃ t, leftRotate (node 3 (node 1 nil nil 1) (node 5 nil (node 9 nil nil 1) (-4)) 70) =
        some t ∧ HeightOK t) ∧
    (HeightOK (node 2 (node 1 nil nil 1) nil 2) ∧
      ∃ t, rightRotateSwapped (node 2 (node 1 nil nil 1) nil 2) = some t ∧
        ¬ HeightOK t) ∧
    (HeightOK (node 1 nil (node 2 nil nil 1) 2) ∧
      ∃ t, leftRotateSwapped (node 1 nil (node 2 nil nil 1) 2) = some t ∧
        ¬ HeightOK t)) :=
  ⟨by decide, by decide, by decide,
    rotations_restore_heights 5 3 (node 1 nil nil 1) nil (node 9 nil nil 1) (-4) 70
      (by decide) (by decide) (by decide)⟩

/-- C17: the key-based rotation choice of `insert` agrees with the
balance-based choice of `deleteNode`.  For every tree satisfying the
invariants and every key, `insert` with the four dispatch conditions of
`deleteNode` returns the same tree as `insert`.  At a node that is unbalanced
after the recursive call, the inserted key is smaller than the key of the left
child exactly when the balance factor of the left child is `≥ 0`, and larger
than the key of the right child exactly when the balance factor of the right
child is `≤ 0`. -/
theorem insert_dispatch_agrees (t : Node) (k0 : Int) (l r : Node) (h : Int)
    (key : Int) (ht : Inv t) (hn : Inv (node k0 l r h)) :
    (∃ t', insert t key = some t' ∧ insertByBalance t key = some t') ∧
    (key < k0 → ∃ l', insert l key = some l' ∧
      (height l' - height r > 1 →
        ∃ lk, keyOf l' = some lk ∧ (key < lk ↔ getBalance l' ≥ 0))) ∧
    (key > k0 → ∃ r', insert r key = some r' ∧
      (height l - height r' < -1 →
        ∃ rk, keyOf r' = some rk ∧ (key > rk ↔ getBalance r' ≤ 0))) := by
  obtain ⟨t', e, -⟩ := insert_inv t key ht
  obtain ⟨-, hh, hbal⟩ := hn
  obtain ⟨e0, hl, hr⟩ := heightOK_node.1 hh
  obtain ⟨⟨b1, b2⟩, bl, br⟩ := balanced_node.1 hbal
  have nl := height_nonneg hl
  have nr := height_nonneg hr
  refine ⟨⟨t', e, by rw [insertByBalance_eq t key ht.2.1 ht.2.2, e]⟩, ?_, ?_⟩
  · intro _
    obtain ⟨l', el, hl', -, g⟩ := insert_avl l key hl bl
    refine ⟨l', el, fun d => ?_⟩
    have ts : TallSide key l' := by
      rcases g with g | ⟨-, g⟩
      · omega
      · exact g
    cases l' with
    | nil => exact absurd ts id
    | node lk ll lr lh =>
      obtain ⟨e1, hll, hlr⟩ := heightOK_node.1 hl'
      have := height_nonneg hll
      have := height_nonneg hlr
      refine ⟨lk, rfl, ?_⟩
      simp only [getBalance, height_node] at d ⊢
      rcases ts with ⟨rfl, rfl⟩ | ⟨p, q⟩ | ⟨p, q⟩
      · simp at e1; omega
      · constructor <;> intro _ <;> omega
      · constructor <;> intro _ <;> omega
  · intro _
    obtain ⟨r', er, hr', -, g⟩ := insert_avl r key hr br
    refine ⟨r', er, fun d => ?_⟩
    have ts : TallSide key r' := by
      rcases g with g | ⟨-, g⟩
      · omega
      · exact g
    cases r' with
    | nil => exact absurd ts id
    | node rk rl rr rh =>
      obtain ⟨e1, hrl, hrr⟩ := heightOK_node.1 hr'
      have := height_nonneg hrl
      have := height_nonneg hrr
      refine ⟨rk, rfl, ?_⟩
      simp only [getBalance, height_node] at d ⊢
      rcases ts with ⟨rfl, rfl⟩ | ⟨p, q⟩ | ⟨p, q⟩
      · simp at e1; omega
      · constructor <;> intro _ <;> omega
      · constructor <;> intro _ <;> omega

theorem insert_dispatch_agrees_witness :
    Inv minimalTree5 ∧ Inv (node 20 (node 10 nil nil 1) nil 2) ∧
    ((∃ t', insert minimalTree5 5 = some t' ∧ insertByBalance minimalTree5 5 = some t') ∧
    ((5 : Int) < 20 → ∃ l', insert (node 10 nil nil 1) 5 = some l' ∧
      (height l' - height nil > 1 →
        ∃ lk, keyOf l' = some lk ∧ ((5 : Int) < lk ↔ getBalance l' ≥ 0))) ∧
    ((5 : Int) > 20 → ∃ r', insert nil 5 = some r' ∧
      (height (node 10 nil nil 1) - height r' < -1 →
        ∃ rk, keyOf r' = some rk ∧ ((5 : Int) > rk ↔ getBalance r' ≤ 0)))) :=
  ⟨by decide, by decide,
    insert_dispatch_agrees minimalTree5 20 (node 10 nil nil 1) nil 2 5
      (by decide) (by decide)⟩

/-- C18: `deleteNode` changes the height by at most one.  For every tree
satisfying the invariants and every key, the height of the result is the old
height or one less, and at every node on the deletion path the balance factor
computed after the recursive call or the splice is one of `-2, -1, 0, 1, 2`
before the corrective rotation. -/
theorem delete_height_step (t : Node) (k : Int) (ht : Inv t) :
    ∃ t' log, deleteNodeT t k = some (t', log) ∧ deleteNode t k = some t' ∧
      (height t' = height t ∨ height t' = height t - 1) ∧
      ∀ s ∈ log, s.balance = -2 ∨ s.balance = -1 ∨ s.balance = 0 ∨ s.balance = 1 ∨
        s.balance = 2 := by
  obtain ⟨t', log, e1, e2, -, -, hh, hs⟩ := deleteNodeT_spec t k ht.2.1 ht.2.2
  refine ⟨t', log, e1, e2, by omega, ?_⟩
  intro s m
  obtain ⟨a, b, -⟩ := hs s m
  omega

theorem delete_height_step_witness :
    Inv minimalTree5 ∧
    ∃ t' log, deleteNodeT minimalTree5 12 = some (t', log) ∧
      deleteNode minimalTree5 12 = some t' ∧
      (height t' = height minimalTree5 ∨ height t' = height minimalTree5 - 1) ∧
      ∀ s ∈ log, s.balance = -2 ∨ s.balance = -1 ∨ s.balance = 0 ∨ s.balance = 1 ∨
        s.balance = 2 :=
  ⟨by decide, delete_height_step minimalTree5 12 (by decide)⟩

/-! ## Rotations in 32-bit arithmetic -/

theorem wrapInt_of_inRange {x : Int} (h : InIntRange x) : wrapInt x = x := by
  obtain ⟨h1, h2⟩ := h
  simp only [INT_MIN, INT_MAX] at h1 h2
  unfold wrapInt
  omega

theorem wrapInt_inRange (x : Int) : InIntRange (wrapInt x) := by
  unfold wrapInt InIntRange INT_MIN INT_MAX
  omega

theorem heightUpdate32_of_inRange {a b : Int} (h : InIntRange (1 + max a b)) :
    heightUpdate32 a b = 1 + tmax a b := by
  rw [heightUpdate32, tmax_eq, wrapInt_of_inRange h]

theorem rightRotate32_eq_rightRotate (ky kx : Int) (a b c : Node) (hy hx : Int)
    (n1 : InIntRange (1 + max (height b) (height c)))
    (n2 : InIntRange (1 + max (height a) (1 + max (height b) (height c)))) :
    rightRotate32 (node ky (node kx a b hx) c hy) =
      rightRotate (node ky (node kx a b hx) c hy) := by
  simp only [rightRotate32, rightRotate, height_node]
  rw [heightUpdate32_of_inRange n1, tmax_eq, heightUpdate32_of_inRange n2]

theorem leftRotate32_eq_leftRotate (kx ky : Int) (a b c : Node) (hx hy : Int)
    (n1 : InIntRange (1 + max (height a) (height b)))
    (n2 : InIntRange (1 + max (1 + max (height a) (height b)) (height c))) :
    leftRotate32 (node kx a (node ky b c hy) hx) =
      leftRotate (node kx a (node ky b c hy) hx) := by
  simp only [leftRotate32, leftRotate, height_node]
  rw [heightUpdate32_of_inRange n1, tmax_eq, heightUpdate32_of_inRange n2]

theorem rotations_inverse_unbounded (ky kx : Int) (a b c : Node) (hy hx hx2 hy2 : Int)
    (e1 : hx = 1 + max (height a) (height b))
    (e2 : hy = 1 + max hx (height c))
    (e3 : hy2 = 1 + max (height b) (height c))
    (e4 : hx2 = 1 + max (height a) hy2) :
    (rightRotate (node ky (node kx a b hx) c hy)).bind leftRotate =
      some (node ky (node kx a b hx) c hy) ∧
    (leftRotate (node kx a (node ky b c hy2) hx2)).bind rightRotate =
      some (node kx a (node ky b c hy2) hx2) := by
  subst e1 e2 e3 e4
  simp [rightRotate, leftRotate, tmax_eq]

/-- C19: rotations are mutual inverses.  The rotations are taken in 32-bit
arithmetic, as the program computes them.  For every tree `y` with present
left child `x` whose cached heights are `int` values and are correct with
respect to the cached heights of their children, `leftRotate (rightRotate y)`
is `y` again, cached heights included; symmetrically
`rightRotate (leftRotate x)` is `x` for every `x` with present right child and
correct cached heights at the two rotated nodes.  This covers the trees on
which the height computed in between exceeds the range of `int`. -/
theorem rotations_mutual_inverse (ky kx : Int) (a b c : Node) (hy hx : Int)
    (kx2 ky2 : Int) (a2 b2 c2 : Node) (hx2 hy2 : Int)
    (r1 : InIntRange hx) (r2 : InIntRange hy)
    (r3 : InIntRange hy2) (r4 : InIntRange hx2)
    (e1 : hx = 1 + max (height a) (height b))
    (e2 : hy = 1 + max hx (height c))
    (e3 : hy2 = 1 + max (height b2) (height c2))
    (e4 : hx2 = 1 + max (height a2) hy2) :
    (rightRotate32 (node ky (node kx a b hx) c hy)).bind leftRotate32 =
      some (node ky (node kx a b hx) c hy) ∧
    (leftRotate32 (node kx2 a2 (node ky2 b2 c2 hy2) hx2)).bind rightRotate32 =
      some (node kx2 a2 (node ky2 b2 c2 hy2) hx2) := by
  have w1 : heightUpdate32 (height a) (height b) = hx := by
    rw [heightUpdate32, tmax_eq, ← e1]; exact wrapInt_of_inRange r1
  have w2 : heightUpdate32 hx (height c) = hy := by
    rw [heightUpdate32, tmax_eq, ← e2]; exact wrapInt_of_inRange r2
  have w3 : heightUpdate32 (height b2) (height c2) = hy2 := by
    rw [heightUpdate32, tmax_eq, ← e3]; exact wrapInt_of_inRange r3
  have w4 : heightUpdate32 (height a2) hy2 = hx2 := by
    rw [heightUpdate32, tmax_eq, ← e4]; exact wrapInt_of_inRange r4
  constructor
  · simp only [rightRotate32, leftRotate32, Option.some_bind, height_node, w1, w2]
  · simp only [rightRotate32, leftRotate32, Option.some_bind, height_node, w3, w4]

theorem rotations_mutual_inverse_witness :
    InIntRange 1 ∧ InIntRange 2147483647 ∧
    (1 : Int) = 1 + max (height nil) (height nil) ∧
    (2147483647 : Int) = 1 + max 1 (height (node 9 nil nil 2147483646)) ∧
    (2147483647 : Int) = 1 + max (height (node 3 nil nil 2147483646)) 1 ∧
    rightRotate32 (node 5 (node 3 nil nil 1) (node 9 nil nil 2147483646) 2147483647) =
      some (node 3 nil (node 5 nil (node 9 nil nil 2147483646) 2147483647)
        (-2147483648)) ∧
    leftRotate32 (node 5 (node 3 nil nil 2147483646) (node 9 nil nil 1) 2147483647) =
      some (node 9 (node 5 (node 3 nil nil 2147483646) nil 2147483647) nil
        (-2147483648)) ∧
    ((rightRotate32
        (node 5 (node 3 nil nil 1) (node 9 nil nil 2147483646) 2147483647)).bind
        leftRotate32 =
      some (node 5 (node 3 nil nil 1) (node 9 nil nil 2147483646) 2147483647) ∧
    (leftRotate32
        (node 5 (node 3 nil nil 2147483646) (node 9 nil nil 1) 2147483647)).bind
        rightRotate32 =
      some (node 5 (node 3 nil nil 2147483646) (node 9 nil nil 1) 2147483647)) :=
  ⟨by decide, by decide, by decide, by decide, by decide, by decide, by decide,
    rotations_mutual_inverse 5 3 nil nil (node 9 nil nil 2147483646) 2147483647 1
      5 9 (node 3 nil nil 2147483646) nil nil 2147483647 1
      (by decide) (by decide) (by decide) (by decide)
      (by decide) (by decide) (by decide) (by decide)⟩

/-! ## The leftmost node -/

theorem head_le_of_sorted {m : Int} {rest : List Int}
    (hs : (m :: rest).Pairwise (· < ·)) : ∀ x ∈ m :: rest, m ≤ x := by
  intro x hx
  rcases List.mem_cons.1 hx with rfl | hx
  · exact le_refl _
  · exact le_of_lt ((List.pairwise_cons.1 hs).1 x hx)

/-- C20: `minValueNode` finds the leftmost node.  On every non-empty tree the
walk ends and returns a node without left child whose key is the first element
of the in-order sequence; when the tree satisfies BST order this key is the
minimum key of the tree.  In the two-child case of `deleteNode` the key copied
up is therefore the smallest key of the tree that is greater than the key of
the deleted node. -/
theorem minValueNode_leftmost (k : Int) (l r : Node) (h : Int) :
    (∃ mk mr mh, minValueNode (node k l r h) = some (node mk nil mr mh) ∧
      (inOrder (node k l r h)).head? = some mk ∧
      (BST (node k l r h) →
        mk ∈ inOrder (node k l r h) ∧ ∀ x ∈ inOrder (node k l r h), mk ≤ x)) ∧
    (BST (node k l r h) → l ≠ nil → r ≠ nil →
      ∃ tk, (minValueNode r).bind keyOf = some tk ∧
        deleteNode (node k l r h) k =
          (deleteNode r tk).bind (fun r' => deleteRebalance tk l r') ∧
        tk ∈ inOrder (node k l r h) ∧ k < tk ∧
        ∀ x ∈ inOrder (node k l r h), k < x → tk ≤ x) := by
  constructor
  · obtain ⟨mk, mr, mh, rest, e1, e2⟩ := minValueNode_spec k l r h
    refine ⟨mk, mr, mh, e1, by rw [e2]; rfl, fun hb => ?_⟩
    have hs := (bst_iff_sorted _).1 hb
    rw [e2] at hs ⊢
    exact ⟨List.mem_cons_self _ _, head_le_of_sorted hs⟩
  · intro hb hl hr
    obtain ⟨b1, b2, -, br⟩ := hb
    cases r with
    | nil => exact absurd rfl hr
    | node rk rl rr rh =>
      cases l with
      | nil => exact absurd rfl hl
      | node lk ll lr lh =>
        obtain ⟨mk, mr, mh, rest, e1, e2⟩ := minValueNode_spec rk rl rr rh
        have hs := (bst_iff_sorted _).1 br
        rw [e2] at hs
        have hm : mk ∈ inOrder (node rk rl rr rh) := by
          rw [e2]; exact List.mem_cons_self _ _
        refine ⟨mk, by simp [e1, keyOf], ?_, ?_, b2 mk hm, ?_⟩
        · rw [deleteNode_eq]
          simp only [e1, keyOf, Option.some_bind]
        · simp only [inOrder, List.mem_append, List.mem_cons] at hm ⊢
          exact Or.inr (Or.inr hm)
        · intro x hx hkx
          rw [inOrder] at hx
          rcases List.mem_append.1 hx with hx | hx
          · have := b1 x hx; omega
          · rcases List.mem_cons.1 hx with rfl | hx
            · omega
            · rw [e2] at hx
              exact head_le_of_sorted hs x hx

theorem minValueNode_leftmost_witness :
    BST (node 20 (node 10 nil nil 1) (node 30 (node 25 nil nil 1) nil 2) 3) ∧
    ∃ tk, (minValueNode (node 30 (node 25 nil nil 1) nil 2)).bind keyOf = some tk ∧
      deleteNode (node 20 (node 10 nil nil 1) (node 30 (node 25 nil nil 1) nil 2) 3) 20 =
        (deleteNode (node 30 (node 25 nil nil 1) nil 2) tk).bind
          (fun r' => deleteRebalance tk (node 10 nil nil 1) r') ∧
      tk ∈ inOrder (node 20 (node 10 nil nil 1) (node 30 (node 25 nil nil 1) nil 2) 3) ∧
      20 < tk ∧
      ∀ x ∈ inOrder (node 20 (node 10 nil nil 1) (node 30 (node 25 nil nil 1) nil 2) 3),
        20 < x → tk ≤ x :=
  ⟨by decide,
    (minValueNode_leftmost 20 (node 10 nil nil 1) (node 30 (node 25 nil nil 1) nil 2) 3).2
      (by decide) (by decide) (by decide)⟩

end AVL
